import Mathlib

/-!
# CSR sparse matrix-vector product, symmetric reordering and stencil generation

A shallow embedding of the sparse kernels of the `kokkos_learning` repository:

* `SpMV_Kernel` (`03_capstone/simple_spmv.cpp`) and `SpMV_Run`
  (`05_reordering/spmv_metis.cpp`): the flat kernel, one work item per row;
* `SpMV_Team` (`06_gpu_preparation/spmv_gpu.cpp`): the hierarchical kernel, one team per row;
* `permute_matrix` (`05_reordering/spmv_metis.cpp`): symmetric relabelling of a CSR matrix;
* `generate_3d_stencil_shuffled` (`05_reordering/spmv_metis.cpp`): the shuffled 7-point stencil.

Modelling conventions.

* `std::vector` and `Kokkos::View` are lists. A read `v[k]` is `v.getD k 0` and a write
  `v[k] = a` is `v.set k a`; both are total, and they agree with the C++ program whenever the
  index is in bounds (an out-of-bounds access has no defined behaviour in the source). The
  theorems state the in-bounds facts they rely on.
* `int` values are natural numbers where the program copies, compares or re-counts values
  that its input already holds as `int` (the kernels and `permute_matrix`). In the generator,
  which multiplies its arguments and counts what it creates, the machine type is explicit:
  `N = nx * ny * nz` is reduced by `int_wrap` to its 32-bit two's complement value, a vector
  of negative size and a `push_back` at an index outside `adj` are faults, and incrementing
  `current_nnz` beyond `INT_MAX` is a fault. A fault is the result `none`. The grid indices
  are computed exactly: the loops visit the indices `0, 1, 2, ...` in order and a `push_back`
  at an index that is not below the length of `adj` faults, so no index exceeds `INT_MAX`
  before a fault.
  The same loops without these limits are kept as the auxiliary functions
  `stencil_adj_total` and `generate_total`, which describe the result when no limit is hit.
* `double` is an arbitrary linearly ordered commutative ring `R` (exact arithmetic); the
  concrete scenarios are evaluated at `R = ℤ`, whose elements are exactly representable.
* `Kokkos::parallel_for` over `n` work items takes the order in which the items run as a
  parameter `sched`; the theorems hold for every schedule that runs each item once.
* `std::sort` is insertion sort: for the total orders used here the sorted arrangement of a
  list is unique up to equal elements, so any correct sort returns the same list.
* `std::shuffle` with the seeded `std::mt19937` is a parameter `p`, the shuffled vector.
-/

namespace KokkosLearning

section Definitions

variable {R : Type} [LinearOrderedCommRing R]

/-! ## Data model -/

/-- The struct `CSRMatrix` of `spmv_metis.cpp`. -/
structure CSRMatrix (R : Type) where
  row_map : List Nat
  col_idx : List Nat
  values : List R
  num_rows : Nat
  num_nnz : Nat
deriving DecidableEq

/-- Well-formed CSR matrix: `row_map` has `num_rows + 1` entries, starts at `0`, is
non-decreasing and ends at `num_nnz`, which is the length of `col_idx` and of `values`; every
column index is below `num_rows`. -/
def CSRMatrix.WellFormed (A : CSRMatrix R) : Prop :=
  A.row_map.length = A.num_rows + 1 ∧
  A.row_map.getD 0 0 = 0 ∧
  List.Pairwise (· ≤ ·) A.row_map ∧
  A.row_map.getD A.num_rows 0 = A.num_nnz ∧
  A.col_idx.length = A.num_nnz ∧
  A.values.length = A.num_nnz ∧
  ∀ c ∈ A.col_idx, c < A.num_rows

instance (A : CSRMatrix R) : Decidable A.WellFormed := by
  unfold CSRMatrix.WellFormed; infer_instance

/-- The stored `(column, value)` pairs of row `i`, in storage order: positions
`row_map[i] ≤ k < row_map[i+1]` of `col_idx` and `values`. -/
def CSRMatrix.row_entries (A : CSRMatrix R) (i : Nat) : List (Nat × R) :=
  (List.range' (A.row_map.getD i 0) (A.row_map.getD (i + 1) 0 - A.row_map.getD i 0)).map
    (fun k => (A.col_idx.getD k 0, A.values.getD k 0))

/-- The column indices of row `i`, in storage order. -/
def CSRMatrix.row_cols (A : CSRMatrix R) (i : Nat) : List Nat :=
  (A.row_entries i).map Prod.fst

/-- Invariant I1: in every row the column indices are strictly increasing. -/
def CSRMatrix.RowsStrictlyIncreasing (A : CSRMatrix R) : Prop :=
  ∀ i, i < A.num_rows → List.Pairwise (· < ·) (A.row_cols i)

instance (A : CSRMatrix R) : Decidable A.RowsStrictlyIncreasing := by
  unfold CSRMatrix.RowsStrictlyIncreasing; infer_instance

/-- The matrix entry `A(r, c)`: the sum of the values stored in row `r` under column `c`
(`0` when none is stored). -/
def CSRMatrix.entry (A : CSRMatrix R) (r c : Nat) : R :=
  (((A.row_entries r).filter (fun e => e.1 = c)).map Prod.snd).sum

/-- All stored `(row, column, value)` triples of the matrix, row by row. -/
def CSRMatrix.triples (A : CSRMatrix R) : List (Nat × Nat × R) :=
  (List.range A.num_rows).flatMap (fun i => (A.row_entries i).map (fun e => (i, e.1, e.2)))

/-- A permutation array over `[0, N)`: `N` entries, pairwise distinct, each below `N`. -/
def IsBijection (perm : List Nat) (N : Nat) : Prop :=
  perm.length = N ∧ perm.Nodup ∧ ∀ v ∈ perm, v < N

instance (perm : List Nat) (N : Nat) : Decidable (IsBijection perm N) := by
  unfold IsBijection; infer_instance

/-! ## Execution substrate -/

/-- `Kokkos::parallel_for(n, body)`: the work items listed in `sched` run one after the other,
each updating the shared state. -/
def parallel_for {σ : Type} (sched : List Nat) (body : Nat → σ → σ) (init : σ) : σ :=
  sched.foldl (fun s i => body i s) init

/-! ## Flat kernels -/

/-- Body of the `SpMV_Kernel` lambda of `simple_spmv.cpp` for work item `i`: the value
written to `y(i)`. -/
def SpMV_Kernel_row (row_map col_idx : List Nat) (values x : List R) (i : Nat) : R :=
  let row_start := row_map.getD i 0
  let row_end := row_map.getD (i + 1) 0
  (List.range' row_start (row_end - row_start)).foldl
    (fun sum k =>
      let col := col_idx.getD k 0
      let val := values.getD k 0
      sum + val * x.getD col 0)
    0

/-- The kernel `SpMV_Kernel` of `simple_spmv.cpp`: `y` is a zero-initialised view of
`num_rows` entries and work item `i` stores its row sum in `y(i)`. -/
def SpMV_Kernel (A : CSRMatrix R) (x : List R) (sched : List Nat) : List R :=
  parallel_for sched
    (fun i y => y.set i (SpMV_Kernel_row A.row_map A.col_idx A.values x i))
    (List.replicate A.num_rows 0)

/-- The kernel `SpMV_Run` of `benchmark_spmv` in `spmv_metis.cpp` (one launch). -/
def SpMV_Run (h_mat : CSRMatrix R) (x : List R) (sched : List Nat) : List R :=
  parallel_for sched
    (fun i y =>
      let start := h_mat.row_map.getD i 0
      let end_ := h_mat.row_map.getD (i + 1) 0
      let sum := (List.range' start (end_ - start)).foldl
        (fun sum k => sum + h_mat.values.getD k 0 * x.getD (h_mat.col_idx.getD k 0) 0) 0
      y.set i sum)
    (List.replicate h_mat.num_rows 0)

/-! ## Hierarchical kernel -/

/-- The `parallel_reduce` over `TeamThreadRange(team_member, row_len)` inside `SpMV_Team`:
member `r` of the team accumulates `lsum` over the offsets `k_offset < row_len` that `owner`
assigns to it, and the partial sums of the `team_size` members are added up. -/
def team_reduce (team_size : Nat) (owner : Nat → Nat) (row_len : Nat) (f : Nat → R) : R :=
  ((List.range team_size).map (fun r =>
    ((List.range row_len).filter (fun k_offset => owner k_offset = r)).foldl
      (fun lsum k_offset => lsum + f k_offset) 0)).sum

/-- Body of the `SpMV_Team` lambda of `spmv_gpu.cpp` for the team with league rank `row`,
run by each of its `team_size` members in turn: the reduction result `row_sum` is shared by
the team and only the member with team rank `0` writes `y(row)`. -/
def SpMV_Team_body (A : CSRMatrix R) (x : List R) (team_size : Nat) (owner : Nat → Nat → Nat)
    (row : Nat) (y : List R) : List R :=
  let row_start := A.row_map.getD row 0
  let row_end := A.row_map.getD (row + 1) 0
  let row_len := row_end - row_start
  let row_sum := team_reduce team_size (owner row) row_len (fun k_offset =>
    let k := row_start + k_offset
    A.values.getD k 0 * x.getD (A.col_idx.getD k 0) 0)
  (List.range team_size).foldl
    (fun y team_rank => if team_rank = 0 then y.set row row_sum else y) y

/-- The kernel `SpMV_Team` of `spmv_gpu.cpp`: a league of `num_rows` teams of `team_size`
members; `owner row k_offset` is the team rank that handles offset `k_offset` of `row`. -/
def SpMV_Team (A : CSRMatrix R) (x : List R) (team_size : Nat) (owner : Nat → Nat → Nat)
    (sched : List Nat) : List R :=
  parallel_for sched (SpMV_Team_body A x team_size owner) (List.replicate A.num_rows 0)

/-! ## Reordering -/

/-- The loop `for (i = 0; i < N; i++) iperm[perm[i]] = i` on a zero-initialised vector of
length `N` (`iperm` in `permute_matrix`, `inv_p` in the generator). -/
def build_iperm (N : Nat) (perm : List Nat) : List Nat :=
  (List.range N).foldl (fun iperm i => iperm.set (perm.getD i 0) i) (List.replicate N 0)

/-- The order `<=` induced by `operator<` of `std::pair<int, double>`: lexicographic. -/
def pair_le (a b : Nat × R) : Prop :=
  a.1 < b.1 ∨ (a.1 = b.1 ∧ a.2 ≤ b.2)

instance : DecidableRel (@pair_le R _) := fun a b => by
  unfold pair_le; infer_instance

/-- The function `permute_matrix` of `spmv_metis.cpp`. The loop state is the matrix `dest`
under construction together with `current_nnz`. -/
def permute_matrix (src : CSRMatrix R) (perm : List Nat) : CSRMatrix R :=
  let N := src.num_rows
  let dest : CSRMatrix R :=
    { row_map := [0], col_idx := [], values := [], num_rows := N, num_nnz := src.num_nnz }
  let iperm := build_iperm N perm
  ((List.range N).foldl
    (fun (st : CSRMatrix R × Nat) new_row =>
      let old_row := iperm.getD new_row 0
      let start := src.row_map.getD old_row 0
      let end_ := src.row_map.getD (old_row + 1) 0
      let ks := List.range' start (end_ - start)
      let new_cols := ks.map (fun k => perm.getD (src.col_idx.getD k 0) 0)
      let new_vals := ks.map (fun k => src.values.getD k 0)
      let temp := (List.range new_cols.length).map
        (fun j => (new_cols.getD j 0, new_vals.getD j 0))
      let temp := temp.insertionSort pair_le
      let st := temp.foldl
        (fun (st : CSRMatrix R × Nat) p =>
          ({ st.1 with col_idx := st.1.col_idx ++ [p.1], values := st.1.values ++ [p.2] },
            st.2 + 1))
        st
      ({ st.1 with row_map := st.1.row_map ++ [st.2] }, st.2))
    (dest, 0)).1

/-! ## Stencil generator -/

/-- The largest value of the 32-bit type `int`. -/
def INT_MAX : Nat := 2147483647

/-- The value an `int` holds after arithmetic whose exact result is `n`: the two's complement
representative of `n` modulo `2^32`, in `[-2^31, 2^31)`. -/
def int_wrap (n : Int) : Int :=
  (n + 2147483648) % 4294967296 - 2147483648

/-- A `for` loop over `l` whose body may fault (`none`): after a fault nothing more runs. -/
def for_loop {σ α : Type} (l : List α) (body : α → σ → Option σ) (init : Option σ) :
    Option σ :=
  l.foldl (fun s a => s.bind (body a)) init

/-- The lambda `get_idx` of `generate_3d_stencil_shuffled`. -/
def get_idx (nx ny : Nat) (x y z : Nat) : Nat :=
  x + y * nx + z * nx * ny

/-- The statement `adj[u].push_back(v)`: an index `u` outside `adj` is a fault. -/
def adj_push_back (adj : List (List Nat)) (u v : Nat) : Option (List (List Nat)) :=
  if u < adj.length then some (adj.set u (adj.getD u [] ++ [v])) else none

/-- Body of the innermost loop of part A of the generator, at grid point `(x, y, z)`. -/
def stencil_visit (nx ny nz : Nat) (x y z : Nat) (adj : List (List Nat)) :
    Option (List (List Nat)) :=
  let u := get_idx nx ny x y z
  (((((if x > 0 then adj_push_back adj u (get_idx nx ny (x - 1) y z) else some adj).bind
    (fun adj => if x < nx - 1 then adj_push_back adj u (get_idx nx ny (x + 1) y z)
      else some adj)).bind
    (fun adj => if y > 0 then adj_push_back adj u (get_idx nx ny x (y - 1) z)
      else some adj)).bind
    (fun adj => if y < ny - 1 then adj_push_back adj u (get_idx nx ny x (y + 1) z)
      else some adj)).bind
    (fun adj => if z > 0 then adj_push_back adj u (get_idx nx ny x y (z - 1))
      else some adj)).bind
    (fun adj => if z < nz - 1 then adj_push_back adj u (get_idx nx ny x y (z + 1))
      else some adj)

/-- Part A of the generator: the adjacency lists of the 7-point stencil on the natural grid,
by the three nested loops over `z`, `y`, `x`, starting from `N` empty lists. -/
def stencil_adj (nx ny nz : Nat) (N : Nat) : Option (List (List Nat)) :=
  for_loop (List.range nz)
    (fun z adj => for_loop (List.range ny)
      (fun y adj => for_loop (List.range nx)
        (fun x adj => stencil_visit nx ny nz x y z adj) (some adj)) (some adj))
    (some (List.replicate N []))

/-- The function `generate_3d_stencil_shuffled` of `spmv_metis.cpp`, with the shuffled
vector `p` (old id to shuffled id) as a parameter. `N` is the `int` value of `nx * ny * nz`
(wrapping the exact product once gives the same value as wrapping after each multiplication).
The result is `none` when the run faults: `N` wrapped to a negative size, a `push_back`
outside `adj`, or `current_nnz` incremented beyond `INT_MAX`. -/
def generate_3d_stencil_shuffled (nx ny nz : Nat) (p : List Nat) : Option (CSRMatrix R) :=
  let N := int_wrap ((nx : Int) * (ny : Int) * (nz : Int))
  if N < 0 then none
  else
    let N := N.toNat
    (stencil_adj nx ny nz N).bind (fun adj =>
      let mat : CSRMatrix R :=
        { row_map := [0], col_idx := [], values := [], num_rows := N, num_nnz := 0 }
      let inv_p := build_iperm N p
      (for_loop (List.range N)
        (fun new_u (st : CSRMatrix R × Nat) =>
          let old_u := inv_p.getD new_u 0
          let new_neighbors := (adj.getD old_u []).map (fun old_v => p.getD old_v 0)
          let new_neighbors := new_neighbors.insertionSort (· ≤ ·)
          (for_loop new_neighbors
            (fun col (st : CSRMatrix R × Nat) =>
              if st.2 < INT_MAX then
                some ({ st.1 with col_idx := st.1.col_idx ++ [col],
                                  values := st.1.values ++ [1] }, st.2 + 1)
              else none)
            (some st)).map
            (fun st => ({ st.1 with row_map := st.1.row_map ++ [st.2] }, st.2)))
        (some (mat, 0))).map
        (fun st => { st.1 with num_nnz := st.2 }))

/-! ## The generator without machine limits -/

/-- The statement `adj[u].push_back(v)` on a total array. -/
def adj_push_back_total (adj : List (List Nat)) (u v : Nat) : List (List Nat) :=
  adj.set u (adj.getD u [] ++ [v])

/-- The loop body `stencil_visit` with total array operations. -/
def stencil_visit_total (nx ny nz : Nat) (x y z : Nat) (adj : List (List Nat)) :
    List (List Nat) :=
  let u := get_idx nx ny x y z
  let adj := if x > 0 then adj_push_back_total adj u (get_idx nx ny (x - 1) y z) else adj
  let adj := if x < nx - 1 then adj_push_back_total adj u (get_idx nx ny (x + 1) y z) else adj
  let adj := if y > 0 then adj_push_back_total adj u (get_idx nx ny x (y - 1) z) else adj
  let adj := if y < ny - 1 then adj_push_back_total adj u (get_idx nx ny x (y + 1) z) else adj
  let adj := if z > 0 then adj_push_back_total adj u (get_idx nx ny x y (z - 1)) else adj
  let adj := if z < nz - 1 then adj_push_back_total adj u (get_idx nx ny x y (z + 1)) else adj
  adj

/-- Part A of the generator on `nx * ny * nz` lists, with total array operations. -/
def stencil_adj_total (nx ny nz : Nat) : List (List Nat) :=
  let N := nx * ny * nz
  (List.range nz).foldl
    (fun adj z => (List.range ny).foldl
      (fun adj y => (List.range nx).foldl
        (fun adj x => stencil_visit_total nx ny nz x y z adj) adj) adj)
    (List.replicate N [])

/-- The generator on unbounded integers with total array operations: the matrix that
`generate_3d_stencil_shuffled` returns when it hits no machine limit. -/
def generate_total (nx ny nz : Nat) (p : List Nat) : CSRMatrix R :=
  let N := nx * ny * nz
  let adj := stencil_adj_total nx ny nz
  let mat : CSRMatrix R :=
    { row_map := [0], col_idx := [], values := [], num_rows := N, num_nnz := 0 }
  let inv_p := build_iperm N p
  let st := (List.range N).foldl
    (fun (st : CSRMatrix R × Nat) new_u =>
      let old_u := inv_p.getD new_u 0
      let new_neighbors := (adj.getD old_u []).map (fun old_v => p.getD old_v 0)
      let new_neighbors := new_neighbors.insertionSort (· ≤ ·)
      let st := new_neighbors.foldl
        (fun (st : CSRMatrix R × Nat) col =>
          ({ st.1 with col_idx := st.1.col_idx ++ [col], values := st.1.values ++ [1] },
            st.2 + 1))
        st
      ({ st.1 with row_map := st.1.row_map ++ [st.2] }, st.2))
    (mat, 0)
  { st.1 with num_nnz := st.2 }

/-! ## Rows stored consecutively -/

/-- The row offsets pushed after rows of the given lengths are appended, starting with `n`
stored entries. -/
def row_offsets (n : Nat) : List Nat → List Nat
  | [] => []
  | len :: lens => (n + len) :: row_offsets (n + len) lens

/-- The CSR matrix that stores the given rows of `(column, value)` pairs one after the
other. -/
def CSRMatrix.of_rows (rows : List (List (Nat × R))) (num_rows num_nnz : Nat) : CSRMatrix R :=
  { row_map := 0 :: row_offsets 0 (rows.map List.length),
    col_idx := rows.flatten.map Prod.fst,
    values := rows.flatten.map Prod.snd,
    num_rows := num_rows,
    num_nnz := num_nnz }

/-- Relabelling of a stored pair: column `c` becomes `perm[c]`, the value is kept. -/
def relabel (perm : List Nat) (e : Nat × R) : Nat × R :=
  (perm.getD e.1 0, e.2)

/-- Row `new_row` of the output of `permute_matrix`: the relabelled pairs of the old row
`iperm[new_row]`, sorted. -/
def permuted_row (src : CSRMatrix R) (perm : List Nat) (new_row : Nat) : List (Nat × R) :=
  ((src.row_entries ((build_iperm src.num_rows perm).getD new_row 0)).map
    (relabel perm)).insertionSort pair_le

/-! ## The stencil on the natural grid -/

/-- The neighbours pushed to `adj[u]` at grid point `(x, y, z)`, in the order of the six
guarded `push_back` statements of the generator. -/
def stencil_neighbors (nx ny nz : Nat) (x y z : Nat) : List Nat :=
  (if x > 0 then [get_idx nx ny (x - 1) y z] else []) ++
  (if x < nx - 1 then [get_idx nx ny (x + 1) y z] else []) ++
  (if y > 0 then [get_idx nx ny x (y - 1) z] else []) ++
  (if y < ny - 1 then [get_idx nx ny x (y + 1) z] else []) ++
  (if z > 0 then [get_idx nx ny x y (z - 1)] else []) ++
  (if z < nz - 1 then [get_idx nx ny x y (z + 1)] else [])

/-- The grid points in the order in which the three nested loops visit them. -/
def grid_points (nx ny nz : Nat) : List (Nat × Nat × Nat) :=
  (List.range nz).flatMap (fun z =>
    (List.range ny).flatMap (fun y => (List.range nx).map (fun x => (x, y, z))))

/-- The sorted list `new_neighbors` of the generator for the shuffled row `new_u`. -/
def stencil_row (nx ny nz : Nat) (p : List Nat) (new_u : Nat) : List Nat :=
  (((stencil_adj_total nx ny nz).getD ((build_iperm (nx * ny * nz) p).getD new_u 0) []).map
    (fun old_v => p.getD old_v 0)).insertionSort (· ≤ ·)

/-- The grid points next to `(x, y, z)` along one axis that lie inside the grid bounds,
with integer coordinates: the six candidates `(x ± 1, y, z)`, `(x, y ± 1, z)`,
`(x, y, z ± 1)` that satisfy `0 ≤ x' < nx`, `0 ≤ y' < ny`, `0 ≤ z' < nz`. -/
def axis_neighbours (nx ny nz : Nat) (x y z : Nat) : List (Int × Int × Int) :=
  [((x : Int) - 1, (y : Int), (z : Int)), ((x : Int) + 1, (y : Int), (z : Int)),
   ((x : Int), (y : Int) - 1, (z : Int)), ((x : Int), (y : Int) + 1, (z : Int)),
   ((x : Int), (y : Int), (z : Int) - 1), ((x : Int), (y : Int), (z : Int) + 1)].filter
    (fun t => 0 ≤ t.1 ∧ t.1 < nx ∧ 0 ≤ t.2.1 ∧ t.2.1 < ny ∧ 0 ≤ t.2.2 ∧ t.2.2 < nz)

/-- The index `idx(x, y, z)` of a grid point given by integer coordinates inside the grid. -/
def idx_of_point (nx ny : Nat) (t : Int × Int × Int) : Nat :=
  get_idx nx ny t.1.toNat t.2.1.toNat t.2.2.toNat

/-! ## Permutation matrices acting on vectors -/

/-- The product `P v`, where `P` is the permutation matrix of `perm` in the sense of
`A' = P A Pᵗ`: entry `i` of `v` moves to position `perm[i]`, so `(P v)[perm[i]] = v[i]`. -/
def apply_P (perm : List Nat) (v : List R) : List R :=
  (List.range v.length).foldl (fun w i => w.set (perm.getD i 0) (v.getD i 0))
    (List.replicate v.length 0)

/-- The product `Pᵗ v`: `(Pᵗ v)[i] = v[perm[i]]`. -/
def apply_Pt (perm : List Nat) (v : List R) : List R :=
  (List.range v.length).map (fun i => v.getD (perm.getD i 0) 0)

/-! ## Validation as the specification words it -/

/-- The generator with the validation the specification asks for: a zero grid dimension is a
configuration error, rejected before generation (`none`); otherwise the result is that of
`generate_3d_stencil_shuffled`. -/
def generate_validated_spec (nx ny nz : Nat) (p : List Nat) : Option (CSRMatrix R) :=
  if nx = 0 ∨ ny = 0 ∨ nz = 0 then none
  else generate_3d_stencil_shuffled nx ny nz p

/-- The empty CSR matrix: no rows, `row_map = [0]`, no stored entries. -/
def empty_matrix : CSRMatrix R :=
  { row_map := [0], col_idx := [], values := [], num_rows := 0, num_nnz := 0 }

/-! ## Concrete scenarios -/

/-- The 4 x 4 matrix of `simple_spmv.cpp` and `spmv_gpu.cpp`. -/
def scenario_matrix : CSRMatrix ℤ :=
  { row_map := [0, 2, 3, 6, 7], col_idx := [0, 3, 1, 0, 2, 3, 3],
    values := [10, 20, 30, 40, 50, 60, 70], num_rows := 4, num_nnz := 7 }

/-- The vector `x` of the scenario: all ones. -/
def scenario_x : List ℤ := [1, 1, 1, 1]

/-- The matrix of the 2 x 2 x 2 grid with the identity shuffle. -/
def stencil_2x2x2 : CSRMatrix ℤ :=
  { row_map := [0, 3, 6, 9, 12, 15, 18, 21, 24],
    col_idx := [1, 2, 4, 0, 3, 5, 0, 3, 6, 1, 2, 7, 0, 5, 6, 1, 4, 7, 2, 4, 7, 3, 5, 6],
    values := List.replicate 24 1, num_rows := 8, num_nnz := 24 }

end Definitions

/-! ## Auxiliary lemmas: arrays and well-formed matrices -/

section Structural

variable {R : Type}

theorem scatter_length {α : Type} (l : List (Nat × α)) (y0 : List α) :
    (l.foldl (fun y p => y.set p.1 p.2) y0).length = y0.length := by
  induction l generalizing y0 with
  | nil => rfl
  | cons p l ih => simp [List.foldl_cons, ih]

theorem scatter_getElem?_not_mem {α : Type} (l : List (Nat × α)) (y0 : List α) (j : Nat)
    (hj : j ∉ l.map Prod.fst) :
    (l.foldl (fun y p => y.set p.1 p.2) y0)[j]? = y0[j]? := by
  induction l generalizing y0 with
  | nil => rfl
  | cons p l ih =>
    simp only [List.map_cons, List.mem_cons, not_or] at hj
    rw [List.foldl_cons, ih _ hj.2, List.getElem?_set_ne (Ne.symm hj.1)]

theorem scatter_getElem?_mem {α : Type} (l : List (Nat × α)) (y0 : List α)
    (hnd : (l.map Prod.fst).Nodup) (p : Nat × α) (hp : p ∈ l) (hlt : p.1 < y0.length) :
    (l.foldl (fun y p => y.set p.1 p.2) y0)[p.1]? = some p.2 := by
  induction l generalizing y0 with
  | nil => simp at hp
  | cons q l ih =>
    simp only [List.map_cons, List.nodup_cons] at hnd
    rw [List.foldl_cons]
    rcases List.mem_cons.1 hp with h | h
    · subst h
      rw [scatter_getElem?_not_mem _ _ _ hnd.1]
      simp [hlt]
    · exact ih _ hnd.2 h (by simpa using hlt)

/-- Writing `f i` to slot `i` for every `i` of a schedule of `[0, n)` fills the slots with
`f 0, ..., f (n-1)`. -/
theorem parallel_for_set {α : Type} (f : Nat → α) (n : Nat) (sched : List Nat) (d : α)
    (hs : sched.Perm (List.range n)) :
    parallel_for sched (fun i y => y.set i (f i)) (List.replicate n d) =
      (List.range n).map f := by
  have hfold : parallel_for sched (fun i y => y.set i (f i)) (List.replicate n d) =
      (sched.map (fun i => (i, f i))).foldl (fun y p => y.set p.1 p.2) (List.replicate n d) := by
    simp [parallel_for, List.foldl_map]
  rw [hfold]
  apply List.ext_getElem?
  intro j
  by_cases hj : j < n
  · have hmem : ((fun i => (i, f i)) j) ∈ sched.map (fun i => (i, f i)) :=
      List.mem_map_of_mem _ (hs.mem_iff.2 (List.mem_range.2 hj))
    have hnd : ((sched.map (fun i => (i, f i))).map Prod.fst).Nodup := by
      simp only [List.map_map, Function.comp_def, List.map_id']
      exact hs.nodup_iff.2 (List.nodup_range n)
    have := scatter_getElem?_mem _ (List.replicate n d) hnd _ hmem (by simpa using hj)
    simp only at this
    rw [this]
    simp [hj]
  · rw [List.getElem?_eq_none (by simp [scatter_length]; omega),
      List.getElem?_eq_none (by simp; omega)]

theorem pairwise_le_getD (l : List Nat) (h : l.Pairwise (· ≤ ·)) (i j : Nat) (hij : i ≤ j)
    (hj : j < l.length) : l.getD i 0 ≤ l.getD j 0 := by
  have hi : i < l.length := by omega
  rw [List.getD_eq_getElem _ _ hi, List.getD_eq_getElem _ _ hj]
  rcases Nat.lt_or_eq_of_le hij with h1 | h1
  · exact (List.pairwise_iff_getElem.1 h) i j hi hj h1
  · subst h1; exact le_rfl

theorem CSRMatrix.WellFormed.row_map_mono {A : CSRMatrix R} (hA : A.WellFormed) {i j : Nat}
    (hij : i ≤ j) (hj : j ≤ A.num_rows) : A.row_map.getD i 0 ≤ A.row_map.getD j 0 :=
  pairwise_le_getD _ hA.2.2.1 i j hij (by rw [hA.1]; omega)

theorem CSRMatrix.WellFormed.row_map_le_nnz {A : CSRMatrix R} (hA : A.WellFormed) {i : Nat}
    (hi : i ≤ A.num_rows) : A.row_map.getD i 0 ≤ A.num_nnz := by
  rw [← hA.2.2.2.1]; exact hA.row_map_mono hi le_rfl

theorem CSRMatrix.WellFormed.col_lt {A : CSRMatrix R} (hA : A.WellFormed) {k : Nat}
    (hk : k < A.num_nnz) : A.col_idx.getD k 0 < A.num_rows := by
  have hk' : k < A.col_idx.length := by rw [hA.2.2.2.2.1]; exact hk
  rw [List.getD_eq_getElem _ _ hk']
  exact hA.2.2.2.2.2.2 _ (List.getElem_mem hk')

theorem CSRMatrix.WellFormed.row_pos_lt {A : CSRMatrix R} (hA : A.WellFormed) {i k : Nat}
    (hi : i < A.num_rows) (hk : k < A.row_map.getD (i + 1) 0) : k < A.num_nnz :=
  lt_of_lt_of_le hk (hA.row_map_le_nnz hi)

theorem team_write (team_size : Nat) (hT : 0 < team_size) (row : Nat) (s : R) (y : List R) :
    (List.range team_size).foldl
      (fun y team_rank => if team_rank = 0 then y.set row s else y) y = y.set row s := by
  obtain ⟨n, rfl⟩ : ∃ n, team_size = n + 1 := ⟨team_size - 1, by omega⟩
  rw [List.range_succ_eq_map, List.foldl_cons, List.foldl_map]
  simp

/-! ### Inverse permutation -/

theorem IsBijection.getD_mem {perm : List Nat} {N : Nat} (h : IsBijection perm N) {i : Nat}
    (hi : i < N) : perm.getD i 0 ∈ perm := by
  have hi' : i < perm.length := by rw [h.1]; exact hi
  rw [List.getD_eq_getElem _ _ hi']
  exact List.getElem_mem hi'

theorem IsBijection.getD_lt {perm : List Nat} {N : Nat} (h : IsBijection perm N) {i : Nat}
    (hi : i < N) : perm.getD i 0 < N :=
  h.2.2 _ (h.getD_mem hi)

theorem IsBijection.getD_inj {perm : List Nat} {N : Nat} (h : IsBijection perm N) {i j : Nat}
    (hi : i < N) (hj : j < N) (e : perm.getD i 0 = perm.getD j 0) : i = j := by
  have hi' : i < perm.length := by rw [h.1]; exact hi
  have hj' : j < perm.length := by rw [h.1]; exact hj
  rw [List.getD_eq_getElem _ _ hi', List.getD_eq_getElem _ _ hj'] at e
  exact (List.Nodup.getElem_inj_iff h.2.1).1 e

theorem IsBijection.map_getD {perm : List Nat} {N : Nat} (h : IsBijection perm N) :
    (List.range N).map (fun i => perm.getD i 0) = perm := by
  apply List.ext_getElem
  · simp [h.1]
  · intro j h1 h2
    simp [List.getD_eq_getElem?_getD, List.getElem?_eq_getElem h2]

theorem IsBijection.perm_range {perm : List Nat} {N : Nat} (h : IsBijection perm N) :
    perm.Perm (List.range N) := by
  apply (List.subperm_of_subset h.2.1 ?_).perm_of_length_le
  · simp [h.1]
  · intro v hv
    exact List.mem_range.2 (h.2.2 v hv)

theorem IsBijection.surj {perm : List Nat} {N : Nat} (h : IsBijection perm N) {j : Nat}
    (hj : j < N) : ∃ i, i < N ∧ perm.getD i 0 = j := by
  have hmem : j ∈ perm := h.perm_range.mem_iff.2 (List.mem_range.2 hj)
  obtain ⟨i, hi, rfl⟩ := List.getElem_of_mem hmem
  exact ⟨i, by rw [← h.1]; exact hi, List.getD_eq_getElem _ _ hi⟩

theorem build_iperm_eq (N : Nat) (perm : List Nat) :
    build_iperm N perm =
      ((List.range N).map (fun i => (perm.getD i 0, i))).foldl (fun y p => y.set p.1 p.2)
        (List.replicate N 0) := by
  simp [build_iperm, List.foldl_map]

theorem build_iperm_length (N : Nat) (perm : List Nat) : (build_iperm N perm).length = N := by
  rw [build_iperm_eq, scatter_length, List.length_replicate]

theorem build_iperm_getD_perm {perm : List Nat} {N : Nat} (h : IsBijection perm N) {i : Nat}
    (hi : i < N) : (build_iperm N perm).getD (perm.getD i 0) 0 = i := by
  rw [build_iperm_eq, List.getD_eq_getElem?_getD]
  have hnd : (((List.range N).map (fun i => (perm.getD i 0, i))).map Prod.fst).Nodup := by
    rw [List.map_map]
    have : (Prod.fst ∘ fun i => (perm.getD i 0, i)) = fun i => perm.getD i 0 := rfl
    rw [this, h.map_getD]; exact h.2.1
  have hmem : (perm.getD i 0, i) ∈ (List.range N).map (fun i => (perm.getD i 0, i)) :=
    List.mem_map.2 ⟨i, List.mem_range.2 hi, rfl⟩
  rw [scatter_getElem?_mem _ _ hnd _ hmem (by simpa using h.getD_lt hi)]
  rfl

theorem perm_getD_build_iperm {perm : List Nat} {N : Nat} (h : IsBijection perm N) {j : Nat}
    (hj : j < N) : perm.getD ((build_iperm N perm).getD j 0) 0 = j := by
  obtain ⟨i, hi, rfl⟩ := h.surj hj
  rw [build_iperm_getD_perm h hi]

theorem build_iperm_getD_lt {perm : List Nat} {N : Nat} (h : IsBijection perm N) {j : Nat}
    (hj : j < N) : (build_iperm N perm).getD j 0 < N := by
  obtain ⟨i, hi, rfl⟩ := h.surj hj
  rw [build_iperm_getD_perm h hi]; exact hi

theorem build_iperm_bijection {perm : List Nat} {N : Nat} (h : IsBijection perm N) :
    IsBijection (build_iperm N perm) N := by
  have hlen := build_iperm_length N perm
  refine ⟨hlen, ?_, ?_⟩
  · rw [List.nodup_iff_injective_get]
    intro a b hab
    have ha : a.1 < N := lt_of_lt_of_eq a.2 hlen
    have hb : b.1 < N := lt_of_lt_of_eq b.2 hlen
    have e : (build_iperm N perm).getD a.1 0 = (build_iperm N perm).getD b.1 0 := by
      rw [List.getD_eq_getElem _ _ a.2, List.getD_eq_getElem _ _ b.2]
      simpa [List.get_eq_getElem] using hab
    have := congrArg (fun t => perm.getD t 0) e
    simp only [perm_getD_build_iperm h ha, perm_getD_build_iperm h hb] at this
    exact Fin.ext this
  · intro v hv
    obtain ⟨j, hj, rfl⟩ := List.getElem_of_mem hv
    rw [← List.getD_eq_getElem _ 0 hj]
    exact build_iperm_getD_lt h (by rw [← hlen]; exact hj)

theorem build_iperm_involutive {perm : List Nat} {N : Nat} (h : IsBijection perm N) :
    build_iperm N (build_iperm N perm) = perm := by
  have hb := build_iperm_bijection h
  apply List.ext_getElem
  · rw [build_iperm_length, h.1]
  · intro i h1 h2
    have hi : i < N := by rw [← h.1]; exact h2
    rw [← List.getD_eq_getElem _ 0 h1, ← List.getD_eq_getElem _ 0 h2]
    apply hb.getD_inj (build_iperm_getD_lt hb hi) (h.getD_lt hi)
    rw [perm_getD_build_iperm hb hi, build_iperm_getD_perm h hi]

theorem row_offsets_length (n : Nat) (lens : List Nat) :
    (row_offsets n lens).length = lens.length := by
  induction lens generalizing n with
  | nil => rfl
  | cons a l ih => simp [row_offsets, ih]

theorem row_offsets_append (n : Nat) (l1 l2 : List Nat) :
    row_offsets n (l1 ++ l2) = row_offsets n l1 ++ row_offsets (n + l1.sum) l2 := by
  induction l1 generalizing n with
  | nil => simp [row_offsets]
  | cons a l ih => simp [row_offsets, ih, add_assoc]

theorem row_offsets_getD (n : Nat) (lens : List Nat) (i : Nat) (hi : i ≤ lens.length) :
    (n :: row_offsets n lens).getD i 0 = n + (lens.take i).sum := by
  induction lens generalizing n i with
  | nil =>
    have : i = 0 := by simpa using hi
    subst this; simp
  | cons a l ih =>
    cases i with
    | zero => simp
    | succ i =>
      have := ih (n + a) i (by simpa using hi)
      simp only [row_offsets, List.getD_cons_succ, List.take_succ_cons, List.sum_cons]
      rw [this]; omega

theorem sum_map_length_take {α : Type} (rows : List (List α)) (i : Nat) :
    ((rows.map List.length).take i).sum = (rows.take i).flatten.length := by
  rw [← List.map_take, List.length_flatten]

theorem map_getD_pair {α β γ : Type} (l : List α) (f : α → β) (g : α → γ) (d1 : β) (d2 : γ) :
    (List.range (l.map f).length).map (fun j => ((l.map f).getD j d1, (l.map g).getD j d2)) =
      l.map (fun a => (f a, g a)) := by
  apply List.ext_getElem
  · simp
  · intro j h1 h2
    have hj : j < l.length := by simpa using h2
    simp [List.getD_eq_getElem?_getD, List.getElem?_map, List.getElem?_eq_getElem hj]

theorem push_pairs_eq (row : List (Nat × R)) (st : CSRMatrix R × Nat) :
    row.foldl
      (fun (st : CSRMatrix R × Nat) p =>
        ({ st.1 with col_idx := st.1.col_idx ++ [p.1], values := st.1.values ++ [p.2] },
          st.2 + 1))
      st =
    ({ st.1 with col_idx := st.1.col_idx ++ row.map Prod.fst,
                 values := st.1.values ++ row.map Prod.snd }, st.2 + row.length) := by
  induction row generalizing st with
  | nil => simp
  | cons p row ih =>
    rw [List.foldl_cons, ih]
    simp [List.append_assoc, Nat.add_assoc, Nat.add_comm 1]

theorem append_rows_eq (rows : List (List (Nat × R))) (st : CSRMatrix R × Nat) :
    rows.foldl
      (fun (st : CSRMatrix R × Nat) row =>
        ({ st.1 with row_map := st.1.row_map ++ [st.2 + row.length],
                     col_idx := st.1.col_idx ++ row.map Prod.fst,
                     values := st.1.values ++ row.map Prod.snd }, st.2 + row.length))
      st =
    ({ row_map := st.1.row_map ++ row_offsets st.2 (rows.map List.length),
       col_idx := st.1.col_idx ++ rows.flatten.map Prod.fst,
       values := st.1.values ++ rows.flatten.map Prod.snd,
       num_rows := st.1.num_rows,
       num_nnz := st.1.num_nnz }, st.2 + rows.flatten.length) := by
  induction rows generalizing st with
  | nil => simp [row_offsets]
  | cons row rows ih =>
    rw [List.foldl_cons, ih]
    simp [row_offsets, List.append_assoc, Nat.add_assoc]

/-! ### The adjacency lists of the stencil -/

theorem cond_push_back (c : Prop) [Decidable c] (adj : List (List Nat)) (u : Nat)
    (L : List Nat) (v : Nat) (hu : u < adj.length) :
    (if c then adj_push_back_total (adj.set u L) u v else adj.set u L) =
      adj.set u (L ++ if c then [v] else []) := by
  by_cases hc : c
  · simp only [hc, if_true, adj_push_back_total]
    rw [List.getD_eq_getElem?_getD, List.getElem?_set_self hu, List.set_set]
    rfl
  · simp [hc]

theorem stencil_visit_eq (nx ny nz x y z : Nat) (adj : List (List Nat)) :
    stencil_visit_total nx ny nz x y z adj =
      adj.set (get_idx nx ny x y z)
        (adj.getD (get_idx nx ny x y z) [] ++ stencil_neighbors nx ny nz x y z) := by
  by_cases hu : get_idx nx ny x y z < adj.length
  · have h0 : adj = adj.set (get_idx nx ny x y z) (adj.getD (get_idx nx ny x y z) []) := by
      rw [List.getD_eq_getElem _ _ hu]
      apply List.ext_getElem?
      intro j
      by_cases hj : get_idx nx ny x y z = j
      · subst hj; rw [List.getElem?_set_self hu, List.getElem?_eq_getElem hu]
      · rw [List.getElem?_set_ne hj]
    unfold stencil_visit_total stencil_neighbors
    simp only
    generalize adj.getD (get_idx nx ny x y z) [] = L at h0 ⊢
    conv_lhs => rw [h0]
    rw [cond_push_back _ _ _ _ _ hu, cond_push_back _ _ _ _ _ hu, cond_push_back _ _ _ _ _ hu,
      cond_push_back _ _ _ _ _ hu, cond_push_back _ _ _ _ _ hu, cond_push_back _ _ _ _ _ hu]
    simp only [List.append_assoc]
  · have hset : ∀ L, adj.set (get_idx nx ny x y z) L = adj :=
      fun L => List.set_eq_of_length_le (by omega)
    unfold stencil_visit_total
    simp only [adj_push_back_total, hset, ite_self]

theorem foldl_flatMap {α β γ : Type} (f : γ → β → γ) (g : α → List β) (l : List α) (a : γ) :
    (l.flatMap g).foldl f a = l.foldl (fun a x => (g x).foldl f a) a := by
  induction l generalizing a with
  | nil => rfl
  | cons x l ih => simp [List.flatMap_cons, List.foldl_append, ih]

theorem stencil_adj_eq_foldl (nx ny nz : Nat) :
    stencil_adj_total nx ny nz =
      (grid_points nx ny nz).foldl
        (fun adj t => stencil_visit_total nx ny nz t.1 t.2.1 t.2.2 adj)
        (List.replicate (nx * ny * nz) []) := by
  unfold stencil_adj_total grid_points
  simp only [foldl_flatMap, List.foldl_map]

theorem flatMap_range' (c k m : Nat) :
    (List.range m).flatMap (fun i => List.range' (c + i * k) k) = List.range' c (m * k) := by
  induction m with
  | zero => simp
  | succ m ih =>
    rw [List.range_succ, List.flatMap_append, ih]
    simp only [List.flatMap_cons, List.flatMap_nil, List.append_nil]
    rw [Nat.succ_mul, List.range'_append_1, Nat.add_comm]

theorem grid_points_map_get_idx (nx ny nz : Nat) :
    (grid_points nx ny nz).map (fun t => get_idx nx ny t.1 t.2.1 t.2.2) =
      List.range (nx * ny * nz) := by
  unfold grid_points
  simp only [List.map_flatMap, List.map_map, Function.comp_def, get_idx]
  have hin : ∀ y z, (List.range nx).map (fun x => x + y * nx + z * nx * ny) =
      List.range' (z * nx * ny + y * nx) nx := by
    intro y z
    rw [List.range'_eq_map_range]
    apply List.map_congr_left
    intro x _
    omega
  simp only [hin]
  have hmid : ∀ z, (List.range ny).flatMap (fun y => List.range' (z * nx * ny + y * nx) nx) =
      List.range' (0 + z * (ny * nx)) (ny * nx) := by
    intro z
    rw [flatMap_range']
    congr 1
    rw [Nat.zero_add, Nat.mul_assoc, Nat.mul_comm nx ny]
  simp only [hmid]
  rw [flatMap_range', List.range_eq_range']
  congr 1
  rw [Nat.mul_comm nz, Nat.mul_comm ny nx]

theorem grid_points_length (nx ny nz : Nat) : (grid_points nx ny nz).length = nx * ny * nz := by
  have h := congrArg List.length (grid_points_map_get_idx nx ny nz)
  simpa using h

theorem mem_grid_points {nx ny nz x y z : Nat} :
    (x, y, z) ∈ grid_points nx ny nz ↔ x < nx ∧ y < ny ∧ z < nz := by
  unfold grid_points
  simp only [List.mem_flatMap, List.mem_map, List.mem_range, Prod.mk.injEq]
  constructor
  · rintro ⟨z', hz, y', hy, x', hx, rfl, rfl, rfl⟩
    exact ⟨hx, hy, hz⟩
  · rintro ⟨hx, hy, hz⟩
    exact ⟨z, hz, y, hy, x, hx, rfl, rfl, rfl⟩

/-- The grid point stored at position `get_idx x y z` of the visiting order is `(x, y, z)`. -/
theorem grid_points_getD {nx ny nz x y z : Nat} (hx : x < nx) (hy : y < ny) (hz : z < nz) :
    get_idx nx ny x y z < nx * ny * nz ∧
    (grid_points nx ny nz)[get_idx nx ny x y z]? = some (x, y, z) := by
  have hmem : (x, y, z) ∈ grid_points nx ny nz := mem_grid_points.2 ⟨hx, hy, hz⟩
  obtain ⟨k, hk, hkeq⟩ := List.getElem_of_mem hmem
  have hmap := grid_points_map_get_idx nx ny nz
  have hk' : k < ((grid_points nx ny nz).map (fun t => get_idx nx ny t.1 t.2.1 t.2.2)).length := by
    simpa using hk
  have h1 : ((grid_points nx ny nz).map (fun t => get_idx nx ny t.1 t.2.1 t.2.2))[k] =
      get_idx nx ny x y z := by
    rw [List.getElem_map, hkeq]
  have h2 : ((grid_points nx ny nz).map (fun t => get_idx nx ny t.1 t.2.1 t.2.2))[k] = k := by
    simp only [hmap, List.getElem_range]
  have hku : get_idx nx ny x y z = k := by rw [← h1, h2]
  rw [hku]
  exact ⟨by rw [← grid_points_length]; exact hk, by rw [List.getElem?_eq_getElem hk, hkeq]⟩

theorem get_idx_lt {nx ny nz x y z : Nat} (hx : x < nx) (hy : y < ny) (hz : z < nz) :
    get_idx nx ny x y z < nx * ny * nz :=
  (grid_points_getD hx hy hz).1

theorem get_idx_inj {nx ny nz x y z x' y' z' : Nat} (hx : x < nx) (hy : y < ny) (hz : z < nz)
    (hx' : x' < nx) (hy' : y' < ny) (hz' : z' < nz)
    (h : get_idx nx ny x y z = get_idx nx ny x' y' z') : (x, y, z) = (x', y', z') := by
  have h1 := (grid_points_getD hx hy hz).2
  have h2 := (grid_points_getD hx' hy' hz').2
  rw [h, h2] at h1
  exact (Option.some.inj h1).symm

/-- Appending `h w` to slot `g w` for work items whose slots are `0, 1, 2, ...` in order
fills the empty slots with `h` of the work items. -/
theorem foldl_append_slots {ω : Type} (g : ω → Nat) (h : ω → List Nat) (ws : List ω)
    (pre : List (List Nat)) (hg : ws.map g = List.range' pre.length ws.length) :
    ws.foldl (fun adj w => adj.set (g w) (adj.getD (g w) [] ++ h w))
      (pre ++ List.replicate ws.length []) = pre ++ ws.map h := by
  induction ws generalizing pre with
  | nil => simp
  | cons w ws ih =>
    simp only [List.map_cons, List.length_cons, List.range'_succ, List.cons.injEq] at hg
    obtain ⟨hw, hrest⟩ := hg
    rw [List.foldl_cons, hw, List.length_cons, List.replicate_succ]
    have hget : (pre ++ [] :: List.replicate ws.length ([] : List Nat)).getD pre.length [] = [] := by
      rw [List.getD_eq_getElem?_getD, List.getElem?_append_right (le_refl _)]
      simp
    have hset : (pre ++ [] :: List.replicate ws.length ([] : List Nat)).set pre.length
        ([] ++ h w) = (pre ++ [h w]) ++ List.replicate ws.length [] := by
      rw [List.set_append_right _ _ (le_refl _)]
      simp
    rw [hget, hset, ih (pre ++ [h w]) (by simpa using hrest)]
    simp

theorem stencil_adj_eq_map (nx ny nz : Nat) :
    stencil_adj_total nx ny nz =
      (grid_points nx ny nz).map (fun t => stencil_neighbors nx ny nz t.1 t.2.1 t.2.2) := by
  rw [stencil_adj_eq_foldl]
  simp only [stencil_visit_eq]
  have h := foldl_append_slots (fun t : Nat × Nat × Nat => get_idx nx ny t.1 t.2.1 t.2.2)
    (fun t => stencil_neighbors nx ny nz t.1 t.2.1 t.2.2) (grid_points nx ny nz) []
    (by rw [grid_points_map_get_idx, grid_points_length, List.range_eq_range']; rfl)
  rw [grid_points_length] at h
  simpa using h

theorem stencil_adj_length (nx ny nz : Nat) : (stencil_adj_total nx ny nz).length = nx * ny * nz := by
  rw [stencil_adj_eq_map, List.length_map, grid_points_length]

theorem stencil_adj_getD {nx ny nz x y z : Nat} (hx : x < nx) (hy : y < ny) (hz : z < nz) :
    (stencil_adj_total nx ny nz).getD (get_idx nx ny x y z) [] = stencil_neighbors nx ny nz x y z := by
  rw [stencil_adj_eq_map, List.getD_eq_getElem?_getD, List.getElem?_map,
    (grid_points_getD hx hy hz).2]
  rfl

theorem filter_singleton_append {α : Type} (q : α → Bool) (a : α) (l : List α) :
    (a :: l).filter q = (if q a then [a] else []) ++ l.filter q := by
  by_cases h : q a <;> simp [List.filter_cons, h]

theorem stencil_neighbors_eq_axis {nx ny nz x y z : Nat} (hx : x < nx) (hy : y < ny)
    (hz : z < nz) :
    stencil_neighbors nx ny nz x y z =
      (axis_neighbours nx ny nz x y z).map (idx_of_point nx ny) := by
  unfold stencil_neighbors axis_neighbours
  simp only [filter_singleton_append, List.filter_nil, List.append_nil, List.map_append]
  have e1 : (decide ((0:Int) ≤ (x:Int) - 1 ∧ (x:Int) - 1 < nx ∧ (0:Int) ≤ (y:Int) ∧ (y:Int) < ny ∧
      (0:Int) ≤ (z:Int) ∧ (z:Int) < nz) = true) ↔ x > 0 := by
    rw [decide_eq_true_iff]; omega
  have e2 : (decide ((0:Int) ≤ (x:Int) + 1 ∧ (x:Int) + 1 < nx ∧ (0:Int) ≤ (y:Int) ∧ (y:Int) < ny ∧
      (0:Int) ≤ (z:Int) ∧ (z:Int) < nz) = true) ↔ x < nx - 1 := by
    rw [decide_eq_true_iff]; omega
  have e3 : (decide ((0:Int) ≤ (x:Int) ∧ (x:Int) < nx ∧ (0:Int) ≤ (y:Int) - 1 ∧ (y:Int) - 1 < ny ∧
      (0:Int) ≤ (z:Int) ∧ (z:Int) < nz) = true) ↔ y > 0 := by
    rw [decide_eq_true_iff]; omega
  have e4 : (decide ((0:Int) ≤ (x:Int) ∧ (x:Int) < nx ∧ (0:Int) ≤ (y:Int) + 1 ∧ (y:Int) + 1 < ny ∧
      (0:Int) ≤ (z:Int) ∧ (z:Int) < nz) = true) ↔ y < ny - 1 := by
    rw [decide_eq_true_iff]; omega
  have e5 : (decide ((0:Int) ≤ (x:Int) ∧ (x:Int) < nx ∧ (0:Int) ≤ (y:Int) ∧ (y:Int) < ny ∧
      (0:Int) ≤ (z:Int) - 1 ∧ (z:Int) - 1 < nz) = true) ↔ z > 0 := by
    rw [decide_eq_true_iff]; omega
  have e6 : (decide ((0:Int) ≤ (x:Int) ∧ (x:Int) < nx ∧ (0:Int) ≤ (y:Int) ∧ (y:Int) < ny ∧
      (0:Int) ≤ (z:Int) + 1 ∧ (z:Int) + 1 < nz) = true) ↔ z < nz - 1 := by
    rw [decide_eq_true_iff]; omega
  have t1 : ((x:Int) - 1).toNat = x - 1 := by omega
  have t2 : ((x:Int) + 1).toNat = x + 1 := by omega
  have t3 : ((y:Int) - 1).toNat = y - 1 := by omega
  have t4 : ((y:Int) + 1).toNat = y + 1 := by omega
  have t5 : ((z:Int) - 1).toNat = z - 1 := by omega
  have t6 : ((z:Int) + 1).toNat = z + 1 := by omega
  simp only [e1, e2, e3, e4, e5, e6]
  simp only [apply_ite (List.map (idx_of_point nx ny)), List.map_cons, List.map_nil,
    idx_of_point, t1, t2, t3, t4, t5, t6, Int.toNat_ofNat, List.append_assoc]

theorem axis_neighbours_nodup (nx ny nz x y z : Nat) : (axis_neighbours nx ny nz x y z).Nodup := by
  unfold axis_neighbours
  apply List.Nodup.filter
  simp only [List.nodup_cons, List.mem_cons, List.mem_singleton, Prod.mk.injEq, List.not_mem_nil,
    List.nodup_nil, not_or, not_false_eq_true, and_true]
  omega

theorem mem_axis_neighbours_bounds {nx ny nz x y z : Nat} {t : Int × Int × Int}
    (ht : t ∈ axis_neighbours nx ny nz x y z) :
    0 ≤ t.1 ∧ t.1 < nx ∧ 0 ≤ t.2.1 ∧ t.2.1 < ny ∧ 0 ≤ t.2.2 ∧ t.2.2 < nz := by
  unfold axis_neighbours at ht
  have h := List.of_mem_filter ht
  exact of_decide_eq_true h

theorem idx_of_point_lt {nx ny nz : Nat} {t : Int × Int × Int}
    (ht : 0 ≤ t.1 ∧ t.1 < nx ∧ 0 ≤ t.2.1 ∧ t.2.1 < ny ∧ 0 ≤ t.2.2 ∧ t.2.2 < nz) :
    idx_of_point nx ny t < nx * ny * nz :=
  get_idx_lt (by omega) (by omega) (by omega)

theorem idx_of_point_inj {nx ny nz : Nat} {t t' : Int × Int × Int}
    (ht : 0 ≤ t.1 ∧ t.1 < nx ∧ 0 ≤ t.2.1 ∧ t.2.1 < ny ∧ 0 ≤ t.2.2 ∧ t.2.2 < nz)
    (ht' : 0 ≤ t'.1 ∧ t'.1 < nx ∧ 0 ≤ t'.2.1 ∧ t'.2.1 < ny ∧ 0 ≤ t'.2.2 ∧ t'.2.2 < nz)
    (h : idx_of_point nx ny t = idx_of_point nx ny t') : t = t' := by
  have h' := @get_idx_inj nx ny nz _ _ _ _ _ _ (by omega) (by omega) (by omega) (by omega) (by omega)
    (by omega) h
  simp only [Prod.mk.injEq] at h'
  obtain ⟨h1, h2, h3⟩ := h'
  apply Prod.ext
  · show t.1 = t'.1; omega
  · apply Prod.ext
    · show t.2.1 = t'.2.1; omega
    · show t.2.2 = t'.2.2; omega

theorem stencil_neighbors_nodup {nx ny nz x y z : Nat} (hx : x < nx) (hy : y < ny)
    (hz : z < nz) : (stencil_neighbors nx ny nz x y z).Nodup := by
  rw [stencil_neighbors_eq_axis hx hy hz]
  apply List.Nodup.map_on _ (axis_neighbours_nodup nx ny nz x y z)
  intro t ht t' ht' h
  exact @idx_of_point_inj nx ny nz t t' (mem_axis_neighbours_bounds ht) (mem_axis_neighbours_bounds ht') h

theorem stencil_neighbors_lt {nx ny nz x y z : Nat} (hx : x < nx) (hy : y < ny)
    (hz : z < nz) {v : Nat} (hv : v ∈ stencil_neighbors nx ny nz x y z) : v < nx * ny * nz := by
  rw [stencil_neighbors_eq_axis hx hy hz] at hv
  obtain ⟨t, ht, rfl⟩ := List.mem_map.1 hv
  exact idx_of_point_lt (mem_axis_neighbours_bounds ht)

theorem stencil_adj_getD_props {nx ny nz u : Nat} (hu : u < nx * ny * nz) :
    ((stencil_adj_total nx ny nz).getD u []).Nodup ∧
    ∀ v ∈ (stencil_adj_total nx ny nz).getD u [], v < nx * ny * nz := by
  have hu' : u < (grid_points nx ny nz).length := by rw [grid_points_length]; exact hu
  have hmem := List.getElem_mem hu'
  obtain ⟨hx, hy, hz⟩ := mem_grid_points.1 hmem
  have hget : (stencil_adj_total nx ny nz).getD u [] =
      stencil_neighbors nx ny nz (grid_points nx ny nz)[u].1 (grid_points nx ny nz)[u].2.1
        (grid_points nx ny nz)[u].2.2 := by
    rw [stencil_adj_eq_map, List.getD_eq_getElem?_getD, List.getElem?_map,
      List.getElem?_eq_getElem hu']
    rfl
  rw [hget]
  exact ⟨stencil_neighbors_nodup hx hy hz, fun v hv => stencil_neighbors_lt hx hy hz hv⟩

theorem sum_map_flatMap {α β : Type} (l : List α) (g : α → List β) (f : β → Nat) :
    ((l.flatMap g).map f).sum = (l.map (fun a => ((g a).map f).sum)).sum := by
  induction l with
  | nil => rfl
  | cons a l ih => simp [List.flatMap_cons, ih]

theorem sum_range_add_const (f : Nat → Nat) (c n : Nat) :
    ((List.range n).map (fun x => f x + c)).sum = ((List.range n).map f).sum + n * c := by
  induction n with
  | zero => simp
  | succ n ih =>
    simp only [List.range_succ, List.map_append, List.sum_append, ih, List.map_cons,
      List.map_nil, List.sum_cons, List.sum_nil, Nat.succ_mul]
    omega

theorem sum_range_pos (n : Nat) :
    ((List.range n).map (fun x => if x > 0 then 1 else 0)).sum = n - 1 := by
  induction n with
  | zero => rfl
  | succ n ih =>
    rw [List.range_succ, List.map_append, List.sum_append, ih]
    cases n with
    | zero => rfl
    | succ m => simp

theorem sum_range_below (n k : Nat) :
    ((List.range n).map (fun x => if x < k then 1 else 0)).sum = min n k := by
  induction n with
  | zero => simp
  | succ n ih =>
    rw [List.range_succ, List.map_append, List.sum_append, ih]
    by_cases h : n < k
    · simp [h]; omega
    · simp [h]; omega

theorem sum_range_axis (n : Nat) :
    ((List.range n).map
      (fun x => (if x > 0 then 1 else 0) + (if x < n - 1 then 1 else 0))).sum = 2 * (n - 1) := by
  rw [List.sum_map_add, sum_range_pos, sum_range_below]
  omega

theorem stencil_neighbors_length (nx ny nz x y z : Nat) :
    (stencil_neighbors nx ny nz x y z).length =
      ((if x > 0 then 1 else 0) + (if x < nx - 1 then 1 else 0)) +
      (((if y > 0 then 1 else 0) + (if y < ny - 1 then 1 else 0)) +
       ((if z > 0 then 1 else 0) + (if z < nz - 1 then 1 else 0))) := by
  unfold stencil_neighbors
  simp only [List.length_append, apply_ite List.length, List.length_singleton, List.length_nil]
  omega

theorem sum_range_affine (f : Nat → Nat) (K m C n : Nat) :
    ((List.range n).map (fun y => K + m * (f y + C))).sum =
      n * K + m * ((List.range n).map f).sum + n * (m * C) := by
  induction n with
  | zero => simp
  | succ n ih =>
    simp only [List.range_succ, List.map_append, List.sum_append, ih, List.map_cons,
      List.map_nil, List.sum_cons, List.sum_nil, Nat.add_zero]
    ring

theorem sum_stencil_degrees (nx ny nz : Nat) :
    ((grid_points nx ny nz).map
      (fun t => (stencil_neighbors nx ny nz t.1 t.2.1 t.2.2).length)).sum =
      2 * ((nx - 1) * ny * nz + nx * (ny - 1) * nz + nx * ny * (nz - 1)) := by
  unfold grid_points
  simp only [sum_map_flatMap, List.map_map, Function.comp_def, stencil_neighbors_length]
  have hin : ∀ y z : Nat, ((List.range nx).map (fun x =>
      ((if x > 0 then 1 else 0) + (if x < nx - 1 then 1 else 0)) +
      (((if y > 0 then 1 else 0) + (if y < ny - 1 then 1 else 0)) +
       ((if z > 0 then 1 else 0) + (if z < nz - 1 then 1 else 0))))).sum =
      2 * (nx - 1) + nx * (((if y > 0 then 1 else 0) + (if y < ny - 1 then 1 else 0)) +
       ((if z > 0 then 1 else 0) + (if z < nz - 1 then 1 else 0))) := by
    intro y z
    rw [sum_range_add_const, sum_range_axis]
  simp only [hin]
  have hmid : ∀ z : Nat, ((List.range ny).map (fun y =>
      2 * (nx - 1) + nx * (((if y > 0 then 1 else 0) + (if y < ny - 1 then 1 else 0)) +
       ((if z > 0 then 1 else 0) + (if z < nz - 1 then 1 else 0))))).sum =
      (ny * (2 * (nx - 1)) + nx * (2 * (ny - 1))) +
        (ny * nx) * (((if z > 0 then 1 else 0) + (if z < nz - 1 then 1 else 0)) + 0) := by
    intro z
    rw [sum_range_affine, sum_range_axis]
    ring
  simp only [hmid]
  rw [sum_range_affine, sum_range_axis]
  ring

end Structural

/-! ## Auxiliary lemmas: row sums -/

section Kernels

variable {R : Type} [LinearOrderedCommRing R]

theorem foldl_add_eq_sum {α : Type} (g : α → R) (l : List α) (a : R) :
    l.foldl (fun sum k => sum + g k) a = a + (l.map g).sum := by
  induction l generalizing a with
  | nil => simp
  | cons k l ih => simp [List.foldl_cons, ih, add_assoc]

theorem sum_range'_eq_sum_Ico (g : Nat → R) (a b : Nat) :
    ((List.range' a (b - a)).map g).sum = ∑ k in Finset.Ico a b, g k := by
  rw [Finset.sum_Ico_eq_sum_range, List.range'_eq_map_range, List.map_map]
  generalize b - a = n
  induction n with
  | zero => simp
  | succ n ih => simp [List.range_succ, Finset.sum_range_succ, ih]

theorem SpMV_Kernel_row_eq (row_map col_idx : List Nat) (values x : List R) (i : Nat) :
    SpMV_Kernel_row row_map col_idx values x i =
      ∑ k in Finset.Ico (row_map.getD i 0) (row_map.getD (i + 1) 0),
        values.getD k 0 * x.getD (col_idx.getD k 0) 0 := by
  unfold SpMV_Kernel_row
  simp only [foldl_add_eq_sum, zero_add]
  exact sum_range'_eq_sum_Ico _ _ _

theorem SpMV_Kernel_eq_map (A : CSRMatrix R) (x : List R) (sched : List Nat)
    (hs : sched.Perm (List.range A.num_rows)) :
    SpMV_Kernel A x sched =
      (List.range A.num_rows).map (SpMV_Kernel_row A.row_map A.col_idx A.values x) :=
  parallel_for_set _ _ _ _ hs

theorem SpMV_Run_eq_Kernel (A : CSRMatrix R) (x : List R) (sched : List Nat) :
    SpMV_Run A x sched = SpMV_Kernel A x sched := rfl

theorem sum_range_indicator (n j : Nat) (a : R) (hj : j < n) :
    ((List.range n).map (fun r => if j = r then a else 0)).sum = a := by
  induction n with
  | zero => omega
  | succ n ihn =>
    rw [List.range_succ, List.map_append, List.sum_append]
    by_cases hlt : j < n
    · rw [ihn hlt]; simp; omega
    · have hjn : j = n := by omega
      have hz : ((List.range n).map (fun r => if j = r then a else 0)).sum = 0 := by
        apply List.sum_eq_zero
        intro y hy
        simp only [List.mem_map, List.mem_range] at hy
        obtain ⟨r, hr, rfl⟩ := hy
        rw [if_neg (by omega)]
      rw [hz]; simp [hjn]

theorem team_reduce_eq_sum (team_size : Nat) (owner : Nat → Nat) (row_len : Nat) (f : Nat → R)
    (hown : ∀ k, k < row_len → owner k < team_size) :
    team_reduce team_size owner row_len f = ((List.range row_len).map f).sum := by
  unfold team_reduce
  have key : ∀ l : List Nat, (∀ k ∈ l, owner k < team_size) →
      ((List.range team_size).map (fun r =>
        (l.filter (fun k_offset => owner k_offset = r)).foldl
          (fun lsum k_offset => lsum + f k_offset) 0)).sum = (l.map f).sum := by
    intro l
    induction l with
    | nil => intro _; simp
    | cons k l ih =>
      intro h
      have hk := h k (List.mem_cons_self _ _)
      have ih' := ih (fun k' hk' => h k' (List.mem_cons_of_mem _ hk'))
      simp only [foldl_add_eq_sum, zero_add] at ih' ⊢
      rw [List.map_cons, List.sum_cons, ← ih']
      have hsplit : ∀ r, ((List.filter (fun k_offset => decide (owner k_offset = r)) (k :: l)).map f).sum
          = (if owner k = r then f k else 0)
            + ((List.filter (fun k_offset => decide (owner k_offset = r)) l).map f).sum := by
        intro r
        by_cases hr : owner k = r <;> simp [List.filter_cons, hr]
      simp only [hsplit]
      rw [List.sum_map_add]
      congr 1
      exact sum_range_indicator _ _ _ hk
  exact key _ (fun k hk => hown k (List.mem_range.1 hk))

theorem SpMV_Team_body_eq (A : CSRMatrix R) (x : List R) (team_size : Nat)
    (owner : Nat → Nat → Nat) (row : Nat) (y : List R) (hT : 0 < team_size)
    (hown : ∀ k, k < A.row_map.getD (row + 1) 0 - A.row_map.getD row 0 →
      owner row k < team_size) :
    SpMV_Team_body A x team_size owner row y =
      y.set row (SpMV_Kernel_row A.row_map A.col_idx A.values x row) := by
  unfold SpMV_Team_body SpMV_Kernel_row
  simp only
  rw [team_write _ hT, team_reduce_eq_sum _ _ _ _ hown, foldl_add_eq_sum, zero_add,
    List.range'_eq_map_range, List.map_map]
  rfl

/-! ### Closed form of `permute_matrix` -/

theorem CSRMatrix.of_rows_row_entries (rows : List (List (Nat × R))) (n nnz i : Nat)
    (hi : i < rows.length) :
    (CSRMatrix.of_rows rows n nnz).row_entries i = rows.getD i [] := by
  unfold CSRMatrix.row_entries CSRMatrix.of_rows
  simp only
  rw [row_offsets_getD _ _ _ (by simp; omega), row_offsets_getD _ _ _ (by simp; omega)]
  simp only [zero_add, sum_map_length_take]
  have hsplit : rows.take (i + 1) = rows.take i ++ [rows[i]] := by
    rw [List.take_succ, List.getElem?_eq_getElem hi]; rfl
  rw [hsplit, List.flatten_append, List.length_append]
  simp only [List.flatten_cons, List.flatten_nil, List.append_nil, Nat.add_sub_cancel_left]
  rw [List.getD_eq_getElem _ _ hi]
  have hF : rows.flatten = (rows.take i).flatten ++ (rows[i] ++ (rows.drop (i + 1)).flatten) := by
    conv_lhs => rw [← List.take_append_drop i rows]
    rw [List.flatten_append, List.drop_eq_getElem_cons hi, List.flatten_cons]
  apply List.ext_getElem
  · simp
  · intro j h1 h2
    simp only [List.getElem_map, List.getElem_range']
    have hj : j < rows[i].length := h2
    rw [hF]
    simp only [List.getD_eq_getElem?_getD, List.getElem?_map]
    rw [List.getElem?_append_right (by omega)]
    simp only [Nat.one_mul, Nat.add_sub_cancel_left]
    rw [List.getElem?_append_left hj, List.getElem?_eq_getElem hj]
    rfl

theorem permuted_row_eq (src : CSRMatrix R) (perm : List Nat) (new_row : Nat) :
    permuted_row src perm new_row =
      List.insertionSort pair_le
        (List.map (fun k => (perm.getD (src.col_idx.getD k 0) 0, src.values.getD k 0))
          (List.range' (src.row_map.getD ((build_iperm src.num_rows perm).getD new_row 0) 0)
            (src.row_map.getD ((build_iperm src.num_rows perm).getD new_row 0 + 1) 0 -
              src.row_map.getD ((build_iperm src.num_rows perm).getD new_row 0) 0))) := by
  unfold permuted_row CSRMatrix.row_entries
  rw [List.map_map]
  rfl

theorem permute_matrix_eq_of_rows (src : CSRMatrix R) (perm : List Nat) :
    permute_matrix src perm =
      CSRMatrix.of_rows ((List.range src.num_rows).map (permuted_row src perm))
        src.num_rows src.num_nnz := by
  have h := append_rows_eq ((List.range src.num_rows).map (permuted_row src perm))
    (({ row_map := [0], col_idx := [], values := [], num_rows := src.num_rows,
        num_nnz := src.num_nnz } : CSRMatrix R), 0)
  rw [List.foldl_map] at h
  unfold permute_matrix
  simp only [push_pairs_eq, map_getD_pair, ← permuted_row_eq]
  exact congrArg Prod.fst h

/-! ### Sorting pairs and the rows of the permuted matrix -/

theorem pair_le_total : IsTotal (Nat × R) pair_le :=
  ⟨fun a b => by
    unfold pair_le
    rcases lt_trichotomy a.1 b.1 with h | h | h
    · exact Or.inl (Or.inl h)
    · rcases le_total a.2 b.2 with h2 | h2
      · exact Or.inl (Or.inr ⟨h, h2⟩)
      · exact Or.inr (Or.inr ⟨h.symm, h2⟩)
    · exact Or.inr (Or.inl h)⟩

theorem pair_le_trans : IsTrans (Nat × R) pair_le :=
  ⟨fun a b c hab hbc => by
    unfold pair_le at *
    rcases hab with h | ⟨h, h2⟩ <;> rcases hbc with h' | ⟨h', h2'⟩
    · exact Or.inl (lt_trans h h')
    · exact Or.inl (h' ▸ h)
    · exact Or.inl (h ▸ h')
    · exact Or.inr ⟨h.trans h', le_trans h2 h2'⟩⟩

theorem pair_le_antisymm : IsAntisymm (Nat × R) pair_le :=
  ⟨fun a b hab hba => by
    unfold pair_le at *
    rcases hab with h | ⟨h, h2⟩ <;> rcases hba with h' | ⟨h', h2'⟩
    · exact absurd h (not_lt_of_gt h')
    · omega
    · omega
    · exact Prod.ext h (le_antisymm h2 h2')⟩

/-- Any sorted rearrangement of a list of pairs is the one `insertionSort` returns. -/
theorem sort_pairs_unique (l s : List (Nat × R)) (hp : s.Perm l) (hs : s.Sorted pair_le) :
    s = l.insertionSort pair_le := by
  haveI := @pair_le_total R _
  haveI := @pair_le_trans R _
  haveI := @pair_le_antisymm R _
  exact List.eq_of_perm_of_sorted (hp.trans (List.perm_insertionSort pair_le l).symm) hs
    (List.sorted_insertionSort pair_le l)

theorem sort_pairs_cols_increasing (l : List (Nat × R)) (hnd : (l.map Prod.fst).Nodup) :
    ((l.insertionSort pair_le).map Prod.fst).Pairwise (· < ·) := by
  haveI := @pair_le_total R _
  haveI := @pair_le_trans R _
  have hs : (l.insertionSort pair_le).Pairwise pair_le := List.sorted_insertionSort pair_le l
  have hn : ((l.insertionSort pair_le).map Prod.fst).Nodup :=
    ((List.perm_insertionSort pair_le l).map Prod.fst).nodup_iff.2 hnd
  rw [List.pairwise_map]
  rw [List.Nodup, List.pairwise_map] at hn
  refine (hs.and hn).imp ?_
  intro a b hab
  rcases hab.1 with h | ⟨h, _⟩
  · exact h
  · exact absurd h hab.2

theorem sort_pairs_of_increasing (l : List (Nat × R))
    (h : (l.map Prod.fst).Pairwise (· < ·)) : l.insertionSort pair_le = l := by
  apply List.Sorted.insertionSort_eq
  rw [List.pairwise_map] at h
  exact h.imp (fun hab => Or.inl hab)

theorem CSRMatrix.WellFormed.row_entries_col_lt {A : CSRMatrix R} (hA : A.WellFormed) {r : Nat}
    (hr : r < A.num_rows) {e : Nat × R} (he : e ∈ A.row_entries r) : e.1 < A.num_rows := by
  unfold CSRMatrix.row_entries at he
  obtain ⟨k, hk, rfl⟩ := List.mem_map.1 he
  rw [List.mem_range'_1] at hk
  have h1 := hA.row_map_mono (Nat.le_succ r) hr
  exact hA.col_lt (hA.row_pos_lt hr (by omega))

theorem permute_matrix_num_rows (src : CSRMatrix R) (perm : List Nat) :
    (permute_matrix src perm).num_rows = src.num_rows := by
  rw [permute_matrix_eq_of_rows]; rfl

theorem permute_matrix_row_entries (src : CSRMatrix R) (perm : List Nat) {i : Nat}
    (hi : i < src.num_rows) :
    (permute_matrix src perm).row_entries i = permuted_row src perm i := by
  rw [permute_matrix_eq_of_rows, CSRMatrix.of_rows_row_entries _ _ _ _ (by simpa using hi)]
  rw [List.getD_eq_getElem _ _ (by simpa using hi)]
  simp

theorem permute_matrix_row_perm (src : CSRMatrix R) (perm : List Nat) {i : Nat}
    (hi : i < src.num_rows) :
    ((permute_matrix src perm).row_entries i).Perm
      ((src.row_entries ((build_iperm src.num_rows perm).getD i 0)).map (relabel perm)) := by
  rw [permute_matrix_row_entries src perm hi]
  exact List.perm_insertionSort _ _

theorem permute_matrix_row_perm_image (src : CSRMatrix R) (perm : List Nat)
    (hp : IsBijection perm src.num_rows) {r : Nat} (hr : r < src.num_rows) :
    ((permute_matrix src perm).row_entries (perm.getD r 0)).Perm
      ((src.row_entries r).map (relabel perm)) := by
  have h := permute_matrix_row_perm src perm (hp.getD_lt hr)
  rwa [build_iperm_getD_perm hp hr] at h

theorem entry_relabel (A : CSRMatrix R) (perm : List Nat) (hA : A.WellFormed)
    (hp : IsBijection perm A.num_rows) {r c : Nat} (hr : r < A.num_rows)
    (hc : c < A.num_rows) :
    (permute_matrix A perm).entry (perm.getD r 0) (perm.getD c 0) = A.entry r c := by
  unfold CSRMatrix.entry
  have h := permute_matrix_row_perm_image A perm hp hr
  rw [((h.filter _).map Prod.snd).sum_eq, List.filter_map, List.map_map]
  have hsnd : (Prod.snd ∘ relabel perm : Nat × R → R) = Prod.snd := rfl
  rw [hsnd]
  congr 2
  apply List.filter_congr
  intro e he
  have hlt := hA.row_entries_col_lt hr he
  simp only [Function.comp, relabel, decide_eq_decide]
  constructor
  · intro h'; exact hp.getD_inj hlt hc h'
  · intro h'; rw [h']

/-! ### A well-formed matrix stores its own rows -/

theorem map_getD_range' {α : Type} (l : List α) (s n : Nat) (h : s + n ≤ l.length) (d : α) :
    (List.range' s n).map (fun k => l.getD k d) = (l.drop s).take n := by
  apply List.ext_getElem
  · simp; omega
  · intro j h1 h2
    have hj : j < n := by simpa using h1
    simp only [List.getElem_map, List.getElem_range', List.getElem_take, List.getElem_drop,
      Nat.one_mul]
    rw [List.getD_eq_getElem _ _ (by omega)]

theorem flatten_slices {α : Type} (l : List α) (rm : Nat → Nat) (h0 : rm 0 = 0) (m : Nat)
    (hmono : ∀ i, i < m → rm i ≤ rm (i + 1)) :
    ((List.range m).map (fun i => (l.drop (rm i)).take (rm (i + 1) - rm i))).flatten =
      l.take (rm m) := by
  induction m with
  | zero => simp [h0]
  | succ m ih =>
    rw [List.range_succ, List.map_append, List.flatten_append,
      ih (fun i hi => hmono i (Nat.lt_succ_of_lt hi))]
    simp only [List.map_cons, List.map_nil, List.flatten_cons, List.flatten_nil,
      List.append_nil]
    have hle := hmono m (Nat.lt_succ_self m)
    conv_rhs => rw [show rm (m + 1) = rm m + (rm (m + 1) - rm m) by omega, List.take_add]

theorem sum_differences (rm : Nat → Nat) (m : Nat) (hmono : ∀ i, i < m → rm i ≤ rm (i + 1)) :
    ((List.range m).map (fun i => rm (i + 1) - rm i)).sum = rm m - rm 0 := by
  induction m with
  | zero => simp
  | succ m ih =>
    have h1 := ih (fun i hi => hmono i (Nat.lt_succ_of_lt hi))
    have hle := hmono m (Nat.lt_succ_self m)
    have hge : rm 0 ≤ rm m := by
      clear ih h1 hle
      induction m with
      | zero => exact le_rfl
      | succ k ihk =>
        exact le_trans (ihk (fun i hi => hmono i (by omega))) (hmono k (by omega))
    rw [List.range_succ, List.map_append, List.sum_append, h1]
    simp
    omega

theorem CSRMatrix.row_entries_length (A : CSRMatrix R) (i : Nat) :
    (A.row_entries i).length = A.row_map.getD (i + 1) 0 - A.row_map.getD i 0 := by
  simp [CSRMatrix.row_entries]

/-- A well-formed matrix is the matrix that stores its own rows one after the other. -/
theorem CSRMatrix.WellFormed.of_rows_self {A : CSRMatrix R} (hA : A.WellFormed) :
    CSRMatrix.of_rows ((List.range A.num_rows).map A.row_entries) A.num_rows A.num_nnz = A := by
  obtain ⟨hlen, h0, hmono, hlast, hcol, hval, hrange⟩ := id hA
  have hm : ∀ m, m ≤ A.num_rows →
      ∀ i, i < m → A.row_map.getD i 0 ≤ A.row_map.getD (i + 1) 0 :=
    fun m hm i hi => hA.row_map_mono (Nat.le_succ i) (by omega)
  have hslice : ∀ i, i < A.num_rows →
      A.row_map.getD i 0 + (A.row_map.getD (i + 1) 0 - A.row_map.getD i 0) ≤ A.num_nnz := by
    intro i hi
    have h1 := hm _ le_rfl i hi
    have h2 : A.row_map.getD (i + 1) 0 ≤ A.num_nnz := hA.row_map_le_nnz hi
    omega
  have hrm : (0 :: row_offsets 0 (((List.range A.num_rows).map A.row_entries).map List.length))
      = A.row_map := by
    apply List.ext_getElem
    · simp [row_offsets_length, hlen]
    · intro i h1 h2
      have hi : i ≤ A.num_rows := by rw [hlen] at h2; omega
      rw [← List.getD_eq_getElem _ 0 h1, ← List.getD_eq_getElem _ 0 h2,
        row_offsets_getD _ _ _ (by simpa using hi), List.map_map, ← List.map_take,
        List.take_range, Nat.min_eq_left hi]
      have := sum_differences (fun i => A.row_map.getD i 0) i (hm i hi)
      simp only [h0] at this
      simp only [Function.comp_def, CSRMatrix.row_entries_length, zero_add]
      rw [this]; rfl
  have hci : (((List.range A.num_rows).map A.row_entries).flatten).map Prod.fst = A.col_idx := by
    rw [List.map_flatten, List.map_map]
    have hcongr : (List.range A.num_rows).map (List.map Prod.fst ∘ A.row_entries) =
        (List.range A.num_rows).map (fun i =>
          (A.col_idx.drop (A.row_map.getD i 0)).take
            (A.row_map.getD (i + 1) 0 - A.row_map.getD i 0)) := by
      apply List.map_congr_left
      intro i hi
      rw [← map_getD_range' _ _ _ (by rw [hcol]; exact hslice i (List.mem_range.1 hi)) 0]
      simp [CSRMatrix.row_entries, Function.comp_def]
    rw [hcongr, flatten_slices A.col_idx (fun i => A.row_map.getD i 0) h0 A.num_rows
      (hm _ le_rfl)]
    simp only [hlast, ← hcol, List.take_length]
  have hvs : (((List.range A.num_rows).map A.row_entries).flatten).map Prod.snd = A.values := by
    rw [List.map_flatten, List.map_map]
    have hcongr : (List.range A.num_rows).map (List.map Prod.snd ∘ A.row_entries) =
        (List.range A.num_rows).map (fun i =>
          (A.values.drop (A.row_map.getD i 0)).take
            (A.row_map.getD (i + 1) 0 - A.row_map.getD i 0)) := by
      apply List.map_congr_left
      intro i hi
      rw [← map_getD_range' _ _ _ (by rw [hval]; exact hslice i (List.mem_range.1 hi)) 0]
      simp [CSRMatrix.row_entries, Function.comp_def]
    rw [hcongr, flatten_slices A.values (fun i => A.row_map.getD i 0) h0 A.num_rows
      (hm _ le_rfl)]
    simp only [hlast, ← hval, List.take_length]
  unfold CSRMatrix.of_rows
  rw [hrm, hci, hvs]

theorem build_iperm_range (N : Nat) : build_iperm N (List.range N) = List.range N := by
  have hb : IsBijection (List.range N) N :=
    ⟨List.length_range N, List.nodup_range N, fun v hv => List.mem_range.1 hv⟩
  apply List.ext_getElem
  · rw [build_iperm_length, List.length_range]
  · intro i h1 h2
    have hi : i < N := by simpa using h2
    have := build_iperm_getD_perm hb hi
    rw [List.getD_eq_getElem _ _ h2, List.getElem_range] at this
    rw [← List.getD_eq_getElem _ 0 h1, this, List.getElem_range]

theorem permuted_row_range (A : CSRMatrix R) (hA : A.WellFormed)
    (hI : A.RowsStrictlyIncreasing) {i : Nat} (hi : i < A.num_rows) :
    permuted_row A (List.range A.num_rows) i = A.row_entries i := by
  unfold permuted_row
  rw [build_iperm_range, List.getD_eq_getElem _ _ (by simpa using hi), List.getElem_range]
  have hmap : (A.row_entries i).map (relabel (List.range A.num_rows)) = A.row_entries i := by
    conv_rhs => rw [← List.map_id (A.row_entries i)]
    apply List.map_congr_left
    intro e he
    have hlt := hA.row_entries_col_lt hi he
    unfold relabel
    rw [List.getD_eq_getElem _ _ (by simpa using hlt), List.getElem_range]
    rfl
  rw [hmap]
  exact sort_pairs_of_increasing _ (hI i hi)

/-! ### Closed form of the generator without machine limits -/

theorem push_cols_eq (cols : List Nat) (st : CSRMatrix R × Nat) :
    cols.foldl
      (fun (st : CSRMatrix R × Nat) col =>
        ({ st.1 with col_idx := st.1.col_idx ++ [col], values := st.1.values ++ [1] },
          st.2 + 1))
      st =
    ({ st.1 with col_idx := st.1.col_idx ++ (cols.map (fun c => (c, (1 : R)))).map Prod.fst,
                 values := st.1.values ++ (cols.map (fun c => (c, (1 : R)))).map Prod.snd },
      st.2 + (cols.map (fun c => (c, (1 : R)))).length) := by
  have h := push_pairs_eq (cols.map (fun c => (c, (1 : R)))) st
  rw [List.foldl_map] at h
  exact h

theorem stencil_row_eq (nx ny nz : Nat) (p : List Nat) (new_u : Nat) :
    stencil_row nx ny nz p new_u =
      List.insertionSort (· ≤ ·)
        (List.map (fun old_v => p.getD old_v 0)
          ((stencil_adj_total nx ny nz).getD ((build_iperm (nx * ny * nz) p).getD new_u 0) [])) :=
  rfl

theorem generate_eq_of_rows (nx ny nz : Nat) (p : List Nat) :
    (generate_total nx ny nz p : CSRMatrix R) =
      CSRMatrix.of_rows
        ((List.range (nx * ny * nz)).map
          (fun new_u => (stencil_row nx ny nz p new_u).map (fun c => (c, (1 : R)))))
        (nx * ny * nz)
        ((List.range (nx * ny * nz)).map
          (fun new_u => (stencil_row nx ny nz p new_u).map (fun c => (c, (1 : R))))).flatten.length
    := by
  have h := append_rows_eq
    ((List.range (nx * ny * nz)).map
      (fun new_u => (stencil_row nx ny nz p new_u).map (fun c => (c, (1 : R)))))
    (({ row_map := [0], col_idx := [], values := [], num_rows := nx * ny * nz,
        num_nnz := 0 } : CSRMatrix R), 0)
  rw [List.foldl_map] at h
  unfold generate_total
  simp only [push_cols_eq, ← stencil_row_eq]
  rw [h]
  simp [CSRMatrix.of_rows]

theorem sorted_nodup_lt (l : List Nat) (hs : l.Pairwise (· ≤ ·)) (hn : l.Nodup) :
    l.Pairwise (· < ·) :=
  (hs.and hn).imp (fun h => lt_of_le_of_ne h.1 h.2)

theorem generate_num_rows (nx ny nz : Nat) (p : List Nat) :
    (generate_total nx ny nz p : CSRMatrix R).num_rows = nx * ny * nz := by
  rw [generate_eq_of_rows]; rfl

theorem generate_row_entries (nx ny nz : Nat) (p : List Nat) {i : Nat}
    (hi : i < nx * ny * nz) :
    (generate_total nx ny nz p : CSRMatrix R).row_entries i =
      (stencil_row nx ny nz p i).map (fun c => (c, (1 : R))) := by
  rw [generate_eq_of_rows, CSRMatrix.of_rows_row_entries _ _ _ _ (by simpa using hi)]
  rw [List.getD_eq_getElem _ _ (by simpa using hi)]
  simp

theorem generate_row_cols (nx ny nz : Nat) (p : List Nat) {i : Nat} (hi : i < nx * ny * nz) :
    (generate_total nx ny nz p : CSRMatrix R).row_cols i =
      stencil_row nx ny nz p i := by
  unfold CSRMatrix.row_cols
  rw [generate_row_entries nx ny nz p hi, List.map_map]
  exact List.map_id _

theorem stencil_row_perm (nx ny nz : Nat) (p : List Nat) (i : Nat) :
    (stencil_row nx ny nz p i).Perm
      (((stencil_adj_total nx ny nz).getD ((build_iperm (nx * ny * nz) p).getD i 0) []).map
        (fun old_v => p.getD old_v 0)) :=
  List.perm_insertionSort _ _

theorem stencil_row_increasing {nx ny nz : Nat} {p : List Nat}
    (hp : IsBijection p (nx * ny * nz)) {i : Nat} (hi : i < nx * ny * nz) :
    (stencil_row nx ny nz p i).Pairwise (· < ·) := by
  apply sorted_nodup_lt
  · exact List.sorted_insertionSort (· ≤ ·) _
  · rw [(stencil_row_perm nx ny nz p i).nodup_iff]
    obtain ⟨hnd, hlt⟩ := @stencil_adj_getD_props nx ny nz _ (build_iperm_getD_lt hp hi)
    apply List.Nodup.map_on _ hnd
    intro a ha b hb hab
    exact hp.getD_inj (hlt a ha) (hlt b hb) hab

theorem stencil_row_lt {nx ny nz : Nat} {p : List Nat}
    (hp : IsBijection p (nx * ny * nz)) {i : Nat} (hi : i < nx * ny * nz) {c : Nat}
    (hc : c ∈ stencil_row nx ny nz p i) : c < nx * ny * nz := by
  rw [(stencil_row_perm nx ny nz p i).mem_iff] at hc
  obtain ⟨v, hv, rfl⟩ := List.mem_map.1 hc
  exact hp.getD_lt ((@stencil_adj_getD_props nx ny nz _ (build_iperm_getD_lt hp hi)).2 v hv)

theorem map_getD_range_self {α : Type} (l : List α) (d : α) :
    (List.range l.length).map (fun u => l.getD u d) = l := by
  apply List.ext_getElem
  · simp
  · intro j h1 h2
    simp [List.getD_eq_getElem?_getD, List.getElem?_eq_getElem h2]

theorem sum_stencil_rows {nx ny nz : Nat} {p : List Nat} (hp : IsBijection p (nx * ny * nz)) :
    ((List.range (nx * ny * nz)).map (fun i => (stencil_row nx ny nz p i).length)).sum =
      2 * ((nx - 1) * ny * nz + nx * (ny - 1) * nz + nx * ny * (nz - 1)) := by
  have hq := build_iperm_bijection hp
  have h1 : (List.range (nx * ny * nz)).map (fun i => (stencil_row nx ny nz p i).length) =
      ((List.range (nx * ny * nz)).map
        (fun i => (build_iperm (nx * ny * nz) p).getD i 0)).map
        (fun u => ((stencil_adj_total nx ny nz).getD u []).length) := by
    rw [List.map_map]
    apply List.map_congr_left
    intro i _
    simp [stencil_row, List.length_insertionSort]
  rw [h1, hq.map_getD, (hq.perm_range.map _).sum_eq]
  have h2 : (List.range (nx * ny * nz)).map
      (fun u => ((stencil_adj_total nx ny nz).getD u []).length) =
      (stencil_adj_total nx ny nz).map List.length := by
    conv_rhs => rw [← map_getD_range_self (stencil_adj_total nx ny nz) [], stencil_adj_length]
    rw [List.map_map]
    rfl
  rw [h2, stencil_adj_eq_map, List.map_map]
  exact sum_stencil_degrees nx ny nz

/-! ## The flat kernel computes the row sums -/

/-- C1. For a well-formed CSR matrix `A`, a vector `x` of length `num_rows` and every
schedule of the `num_rows` work items, the flat kernel `SpMV_Kernel` returns a vector of
length `num_rows` whose entry `i` is the sum over `k` in `[row_map[i], row_map[i+1])` of
`values[k] * x[col_idx[k]]` (the empty sum `0` for an empty row); every position `k` read
for row `i` lies inside `col_idx` and `values`, and `col_idx[k]` lies inside `x`. -/
theorem SpMV_Kernel_correct (A : CSRMatrix R) (x : List R) (sched : List Nat)
    (hA : A.WellFormed) (hx : x.length = A.num_rows)
    (hs : sched.Perm (List.range A.num_rows)) :
    (SpMV_Kernel A x sched).length = A.num_rows ∧
    ∀ i, i < A.num_rows →
      (∀ k, A.row_map.getD i 0 ≤ k → k < A.row_map.getD (i + 1) 0 →
        k < A.col_idx.length ∧ k < A.values.length ∧ A.col_idx.getD k 0 < x.length) ∧
      (SpMV_Kernel A x sched)[i]? =
        some (∑ k in Finset.Ico (A.row_map.getD i 0) (A.row_map.getD (i + 1) 0),
          A.values.getD k 0 * x.getD (A.col_idx.getD k 0) 0) := by
  rw [SpMV_Kernel_eq_map A x sched hs]
  refine ⟨by simp, fun i hi => ⟨fun k _ hk => ?_, ?_⟩⟩
  · have hk' : k < A.num_nnz := hA.row_pos_lt hi hk
    exact ⟨by rw [hA.2.2.2.2.1]; exact hk', by rw [hA.2.2.2.2.2.1]; exact hk',
      by rw [hx]; exact hA.col_lt hk'⟩
  · rw [List.getElem?_map, List.getElem?_range hi, Option.map_some', SpMV_Kernel_row_eq]

/-- C1, scenario 1: the 4 x 4 matrix with `x` all ones gives `y = [30, 30, 150, 70]`, and
each entry is the row sum. -/
theorem SpMV_Kernel_correct_scenario :
    scenario_matrix.WellFormed ∧
    SpMV_Kernel scenario_matrix scenario_x [0, 1, 2, 3] = [30, 30, 150, 70] ∧
    ∀ i, i < 4 →
      (SpMV_Kernel scenario_matrix scenario_x [0, 1, 2, 3])[i]? =
        some (∑ k in Finset.Ico (scenario_matrix.row_map.getD i 0)
            (scenario_matrix.row_map.getD (i + 1) 0),
          scenario_matrix.values.getD k 0 *
            scenario_x.getD (scenario_matrix.col_idx.getD k 0) 0) :=
  ⟨by decide, by decide, fun i hi =>
    ((SpMV_Kernel_correct scenario_matrix scenario_x [0, 1, 2, 3] (by decide) (by decide)
      (by decide)).2 i hi).2⟩

/-! ## The hierarchical kernel agrees with the flat kernel -/

/-- C6. For a well-formed CSR matrix `A`, a vector `x` of length `num_rows`, every team
size `team_size ≥ 1`, every assignment `owner` of the offsets of each row to team ranks below
`team_size`, and all schedules of the teams and of the flat work items, the hierarchical
kernel `SpMV_Team` and the flat kernel `SpMV_Kernel` return the same vector `y`. -/
theorem SpMV_Team_eq_SpMV_Kernel (A : CSRMatrix R) (x : List R) (team_size : Nat)
    (owner : Nat → Nat → Nat) (sched_team sched_flat : List Nat)
    (_hA : A.WellFormed) (_hx : x.length = A.num_rows) (hT : 0 < team_size)
    (hown : ∀ row k, row < A.num_rows →
      k < A.row_map.getD (row + 1) 0 - A.row_map.getD row 0 → owner row k < team_size)
    (hst : sched_team.Perm (List.range A.num_rows))
    (hsf : sched_flat.Perm (List.range A.num_rows)) :
    SpMV_Team A x team_size owner sched_team = SpMV_Kernel A x sched_flat := by
  rw [SpMV_Kernel_eq_map A x sched_flat hsf, ← SpMV_Kernel_eq_map A x sched_team hst]
  unfold SpMV_Team SpMV_Kernel parallel_for
  apply List.foldl_ext
  intro y row hrow
  have hlt : row < A.num_rows := List.mem_range.1 (hst.mem_iff.1 hrow)
  exact SpMV_Team_body_eq A x team_size owner row y hT (fun k hk => hown row k hlt hk)

/-- C6, scenario 1: with teams of two members and the offsets dealt out round-robin, both
kernels give `[30, 30, 150, 70]` on the 4 x 4 matrix. -/
theorem SpMV_Team_eq_SpMV_Kernel_scenario :
    SpMV_Team scenario_matrix scenario_x 2 (fun _ k => k % 2) [2, 0, 3, 1] = [30, 30, 150, 70] ∧
    SpMV_Kernel scenario_matrix scenario_x [0, 1, 2, 3] = [30, 30, 150, 70] ∧
    SpMV_Team scenario_matrix scenario_x 2 (fun _ k => k % 2) [2, 0, 3, 1] =
      SpMV_Kernel scenario_matrix scenario_x [0, 1, 2, 3] :=
  ⟨by decide, by decide,
    SpMV_Team_eq_SpMV_Kernel scenario_matrix scenario_x 2 (fun _ k => k % 2) [2, 0, 3, 1]
      [0, 1, 2, 3] (by decide) (by decide) (by decide)
      (fun _ k _ _ => Nat.mod_lt k (by decide)) (by decide) (by decide)⟩

/-! ## Reordering: relabelling, sortedness, round trip, identity -/

/-- C2. For a well-formed square CSR matrix `A` with `N` rows and a bijection `perm` on
`[0, N)`, `permute_matrix A perm` has `N` rows; its row `perm[r]` holds exactly the pairs
`(perm[c], v)` for the pairs `(c, v)` stored in row `r` of `A` (the same pairs with the same
multiplicities, nothing else); equivalently its row `i` holds the relabelled pairs of the old
row `iperm[i]`; and `A'(perm[r], perm[c]) = A(r, c)` for all `r, c < N`. -/
theorem permute_matrix_relabels (A : CSRMatrix R) (perm : List Nat) (hA : A.WellFormed)
    (hp : IsBijection perm A.num_rows) :
    (permute_matrix A perm).num_rows = A.num_rows ∧
    (∀ r, r < A.num_rows →
      ((permute_matrix A perm).row_entries (perm.getD r 0)).Perm
        ((A.row_entries r).map (relabel perm))) ∧
    (∀ i, i < A.num_rows →
      ((permute_matrix A perm).row_entries i).Perm
        ((A.row_entries ((build_iperm A.num_rows perm).getD i 0)).map (relabel perm))) ∧
    (∀ r c, r < A.num_rows → c < A.num_rows →
      (permute_matrix A perm).entry (perm.getD r 0) (perm.getD c 0) = A.entry r c) :=
  ⟨permute_matrix_num_rows A perm,
    fun _ hr => permute_matrix_row_perm_image A perm hp hr,
    fun _ hi => permute_matrix_row_perm A perm hi,
    fun _ _ hr hc => entry_relabel A perm hA hp hr hc⟩

/-- C2 on the 4 x 4 scenario matrix with the cyclic shift `perm = [1, 2, 3, 0]`. -/
theorem permute_matrix_relabels_scenario :
    permute_matrix scenario_matrix [1, 2, 3, 0] =
      { row_map := [0, 1, 3, 4, 7], col_idx := [0, 0, 1, 2, 0, 1, 3],
        values := [70, 20, 10, 30, 60, 40, 50], num_rows := 4, num_nnz := 7 } ∧
    (∀ r c, r < 4 → c < 4 →
      (permute_matrix scenario_matrix [1, 2, 3, 0]).entry
        (([1, 2, 3, 0] : List Nat).getD r 0) (([1, 2, 3, 0] : List Nat).getD c 0) =
      scenario_matrix.entry r c) :=
  ⟨by decide,
    (permute_matrix_relabels scenario_matrix [1, 2, 3, 0] (by decide) (by decide)).2.2.2⟩

/-- C3. For a well-formed CSR matrix `A` whose rows have strictly increasing column indices
and a bijection `perm` on `[0, num_rows)`, every row of `permute_matrix A perm` has strictly
increasing column indices, and the pairs of output row `i` are the pairs of the old row
`iperm[i]` with each column `c` replaced by `perm[c]` and its value kept. -/
theorem permute_matrix_rows_increasing (A : CSRMatrix R) (perm : List Nat) (hA : A.WellFormed)
    (hI : A.RowsStrictlyIncreasing) (hp : IsBijection perm A.num_rows) :
    (permute_matrix A perm).RowsStrictlyIncreasing ∧
    ∀ i, i < A.num_rows →
      ((permute_matrix A perm).row_entries i).Perm
        ((A.row_entries ((build_iperm A.num_rows perm).getD i 0)).map (relabel perm)) := by
  refine ⟨?_, fun _ hi => permute_matrix_row_perm A perm hi⟩
  intro i hi
  rw [permute_matrix_num_rows] at hi
  unfold CSRMatrix.row_cols
  rw [permute_matrix_row_entries A perm hi]
  apply sort_pairs_cols_increasing
  have hold := build_iperm_getD_lt hp hi
  have hnd : (A.row_cols ((build_iperm A.num_rows perm).getD i 0)).Nodup :=
    (hI _ hold).imp (fun h => Nat.ne_of_lt h)
  rw [List.map_map]
  have hfun : (Prod.fst ∘ relabel perm : Nat × R → Nat) = (fun c => perm.getD c 0) ∘ Prod.fst :=
    rfl
  rw [hfun, ← List.map_map]
  apply List.Nodup.map_on _ hnd
  intro c hc d hd hcd
  obtain ⟨e, he, rfl⟩ := List.mem_map.1 hc
  obtain ⟨e', he', rfl⟩ := List.mem_map.1 hd
  exact hp.getD_inj (hA.row_entries_col_lt hold he) (hA.row_entries_col_lt hold he') hcd

/-- C3 on the 4 x 4 scenario matrix with `perm = [1, 2, 3, 0]`. -/
theorem permute_matrix_rows_increasing_scenario :
    (permute_matrix scenario_matrix [1, 2, 3, 0]).RowsStrictlyIncreasing :=
  (permute_matrix_rows_increasing scenario_matrix [1, 2, 3, 0] (by decide) (by decide)
    (by decide)).1

/-- C4. Round trip: for a well-formed square CSR matrix `A` and a bijection `perm` on
`[0, num_rows)`, permuting by `perm` and then by its inverse `iperm` (`iperm[perm[i]] = i`)
gives a matrix with the same multiset of `(row, column, value)` triples as `A`. -/
theorem permute_matrix_round_trip (A : CSRMatrix R) (perm : List Nat) (hA : A.WellFormed)
    (hp : IsBijection perm A.num_rows) :
    (permute_matrix (permute_matrix A perm) (build_iperm A.num_rows perm)).triples.Perm
      A.triples := by
  unfold CSRMatrix.triples
  rw [permute_matrix_num_rows, permute_matrix_num_rows]
  apply List.Perm.flatMap_left
  intro i hi
  have hi' : i < A.num_rows := List.mem_range.1 hi
  apply List.Perm.map
  have hq := build_iperm_bijection hp
  have h1 := @permute_matrix_row_perm R _ (permute_matrix A perm) (build_iperm A.num_rows perm)
    i (by rw [permute_matrix_num_rows]; exact hi')
  rw [permute_matrix_num_rows, build_iperm_involutive hp] at h1
  have h2 := permute_matrix_row_perm_image A perm hp hi'
  refine h1.trans ((h2.map _).trans ?_)
  rw [List.map_map]
  conv_rhs => rw [← List.map_id (A.row_entries i)]
  apply List.Perm.of_eq
  apply List.map_congr_left
  intro e he
  have hlt := hA.row_entries_col_lt hi' he
  simp only [Function.comp, relabel, id]
  rw [build_iperm_getD_perm hp hlt]

/-- C4 on the 4 x 4 scenario matrix: permuting by `[1, 2, 3, 0]` and back by `[3, 0, 1, 2]`
returns the matrix itself. -/
theorem permute_matrix_round_trip_scenario :
    permute_matrix (permute_matrix scenario_matrix [1, 2, 3, 0]) [3, 0, 1, 2] = scenario_matrix ∧
    (permute_matrix (permute_matrix scenario_matrix [1, 2, 3, 0])
      (build_iperm 4 [1, 2, 3, 0])).triples.Perm scenario_matrix.triples :=
  ⟨by decide, permute_matrix_round_trip scenario_matrix [1, 2, 3, 0] (by decide) (by decide)⟩

/-- C7. For a well-formed CSR matrix `A` whose rows are strictly increasing in column index,
`permute_matrix` with the identity permutation returns `A` itself: the same `row_map`,
`col_idx`, `values`, `num_rows` and `num_nnz`. -/
theorem permute_matrix_identity (A : CSRMatrix R) (hA : A.WellFormed)
    (hI : A.RowsStrictlyIncreasing) :
    permute_matrix A (List.range A.num_rows) = A := by
  rw [permute_matrix_eq_of_rows]
  have hrows : (List.range A.num_rows).map (permuted_row A (List.range A.num_rows)) =
      (List.range A.num_rows).map A.row_entries :=
    List.map_congr_left (fun i hi => permuted_row_range A hA hI (List.mem_range.1 hi))
  rw [hrows]
  exact hA.of_rows_self

/-- C7 on the 4 x 4 scenario matrix. -/
theorem permute_matrix_identity_scenario :
    permute_matrix scenario_matrix [0, 1, 2, 3] = scenario_matrix :=
  permute_matrix_identity scenario_matrix (by decide) (by decide)

/-! ## Reordering and the matrix-vector product -/

theorem SpMV_Kernel_row_eq_entries (A : CSRMatrix R) (x : List R) (i : Nat) :
    SpMV_Kernel_row A.row_map A.col_idx A.values x i =
      ((A.row_entries i).map (fun e => e.2 * x.getD e.1 0)).sum := by
  unfold SpMV_Kernel_row CSRMatrix.row_entries
  simp only [foldl_add_eq_sum, zero_add, List.map_map]
  rfl

theorem apply_P_eq (perm : List Nat) (v : List R) :
    apply_P perm v =
      ((List.range v.length).map (fun i => (perm.getD i 0, v.getD i 0))).foldl
        (fun y p => y.set p.1 p.2) (List.replicate v.length 0) := by
  simp [apply_P, List.foldl_map]

theorem apply_P_length (perm : List Nat) (v : List R) : (apply_P perm v).length = v.length := by
  rw [apply_P_eq, scatter_length, List.length_replicate]

theorem apply_P_getD {perm : List Nat} {v : List R} (hp : IsBijection perm v.length) {i : Nat}
    (hi : i < v.length) : (apply_P perm v).getD (perm.getD i 0) 0 = v.getD i 0 := by
  rw [apply_P_eq, List.getD_eq_getElem?_getD]
  have hnd : (((List.range v.length).map (fun i => (perm.getD i 0, v.getD i 0))).map
      Prod.fst).Nodup := by
    rw [List.map_map]
    have : (Prod.fst ∘ fun i => (perm.getD i 0, v.getD i 0)) = fun i => perm.getD i 0 := rfl
    rw [this, hp.map_getD]; exact hp.2.1
  have hmem : (perm.getD i 0, v.getD i 0) ∈
      (List.range v.length).map (fun i => (perm.getD i 0, v.getD i 0)) :=
    List.mem_map.2 ⟨i, List.mem_range.2 hi, rfl⟩
  rw [scatter_getElem?_mem _ _ hnd _ hmem (by simpa using hp.getD_lt hi)]
  rfl

/-- The row sum of row `perm[i]` of the permuted matrix against `P x` is the row sum of row
`i` of the source matrix against `x`. -/
theorem permute_matrix_row_sum (A : CSRMatrix R) (perm : List Nat) (x : List R)
    (hA : A.WellFormed) (hp : IsBijection perm A.num_rows) (hx : x.length = A.num_rows)
    {i : Nat} (hi : i < A.num_rows) :
    SpMV_Kernel_row (permute_matrix A perm).row_map (permute_matrix A perm).col_idx
        (permute_matrix A perm).values (apply_P perm x) (perm.getD i 0) =
      SpMV_Kernel_row A.row_map A.col_idx A.values x i := by
  rw [SpMV_Kernel_row_eq_entries, SpMV_Kernel_row_eq_entries,
    ((permute_matrix_row_perm_image A perm hp hi).map _).sum_eq, List.map_map]
  congr 1
  apply List.map_congr_left
  intro e he
  have hlt : e.1 < x.length := by rw [hx]; exact hA.row_entries_col_lt hi he
  simp only [Function.comp, relabel]
  rw [apply_P_getD (by rw [hx]; exact hp) hlt]

/-- C5, amended. For a well-formed square CSR matrix `A`, a bijection `perm` on `[0, N)`
and a vector `x` of length `N`, `SpMV(permute_matrix(A, perm), P x) = P · SpMV(A, x)`, where
`(P v)[perm[i]] = v[i]`, for all schedules of the two kernel launches. -/
theorem SpMV_permute_equivariant (A : CSRMatrix R) (perm : List Nat) (x : List R)
    (sched sched' : List Nat) (hA : A.WellFormed) (hp : IsBijection perm A.num_rows)
    (hx : x.length = A.num_rows) (hs : sched.Perm (List.range A.num_rows))
    (hs' : sched'.Perm (List.range A.num_rows)) :
    SpMV_Run (permute_matrix A perm) (apply_P perm x) sched' =
      apply_P perm (SpMV_Run A x sched) := by
  rw [SpMV_Run_eq_Kernel, SpMV_Run_eq_Kernel, SpMV_Kernel_eq_map A x sched hs,
    SpMV_Kernel_eq_map _ _ sched' (by rw [permute_matrix_num_rows]; exact hs'),
    permute_matrix_num_rows]
  have hlenv : ((List.range A.num_rows).map
      (SpMV_Kernel_row A.row_map A.col_idx A.values x)).length = A.num_rows := by simp
  apply List.ext_getElem
  · rw [apply_P_length]; simp
  · intro j h1 h2
    have hj : j < A.num_rows := by simpa using h1
    obtain ⟨i, hi, rfl⟩ := hp.surj hj
    have hget := @apply_P_getD R _ perm
      ((List.range A.num_rows).map (SpMV_Kernel_row A.row_map A.col_idx A.values x))
      (by rw [hlenv]; exact hp) i (by rw [hlenv]; exact hi)
    rw [List.getD_eq_getElem _ _ h2] at hget
    have hrow : ((List.range A.num_rows).map
        (SpMV_Kernel_row A.row_map A.col_idx A.values x)).getD i 0 =
        SpMV_Kernel_row A.row_map A.col_idx A.values x i := by
      rw [List.getD_eq_getElem?_getD, List.getElem?_map, List.getElem?_range hi]; rfl
    rw [hget, hrow]
    simp only [List.getElem_map, List.getElem_range]
    exact permute_matrix_row_sum A perm x hA hp hx hi

/-- C5, amended, on the 4 x 4 scenario matrix with `perm = [1, 2, 3, 0]`, `x = [1, 2, 3, 4]`. -/
theorem SpMV_permute_equivariant_scenario :
    SpMV_Run (permute_matrix scenario_matrix [1, 2, 3, 0]) (apply_P [1, 2, 3, 0] [1, 2, 3, 4])
        [0, 1, 2, 3] =
      apply_P [1, 2, 3, 0] (SpMV_Run scenario_matrix [1, 2, 3, 4] [0, 1, 2, 3]) :=
  SpMV_permute_equivariant scenario_matrix [1, 2, 3, 0] [1, 2, 3, 4] [0, 1, 2, 3] [0, 1, 2, 3]
    (by decide) (by decide) (by decide) (by decide) (by decide)

/-- C5 as stated fails: on the 4 x 4 scenario matrix with `perm = [1, 2, 3, 0]` and
`x = [1, 2, 3, 4]`, `SpMV(permute_matrix(A, perm), Pᵗ x)` is `[140, 70, 120, 290]` while
`P · SpMV(A, x)` is `[280, 90, 60, 430]`. -/
theorem SpMV_permute_Pt_counterexample :
    scenario_matrix.WellFormed ∧ IsBijection [1, 2, 3, 0] scenario_matrix.num_rows ∧
    SpMV_Run (permute_matrix scenario_matrix [1, 2, 3, 0]) (apply_Pt [1, 2, 3, 0] [1, 2, 3, 4])
        [0, 1, 2, 3] = [140, 70, 120, 290] ∧
    apply_P [1, 2, 3, 0] (SpMV_Run scenario_matrix [1, 2, 3, 4] [0, 1, 2, 3]) =
      [280, 90, 60, 430] ∧
    SpMV_Run (permute_matrix scenario_matrix [1, 2, 3, 0]) (apply_Pt [1, 2, 3, 0] [1, 2, 3, 4])
        [0, 1, 2, 3] ≠
      apply_P [1, 2, 3, 0] (SpMV_Run scenario_matrix [1, 2, 3, 4] [0, 1, 2, 3]) := by
  decide

/-! ## The generator without machine limits -/

/-- With a shuffle permutation `p`, every row of `generate_total` has strictly increasing
column indices and every column index is below `num_rows`. -/
theorem generate_total_rows_increasing (nx ny nz : Nat) (p : List Nat)
    (hp : IsBijection p (nx * ny * nz)) :
    (generate_total nx ny nz p : CSRMatrix R).RowsStrictlyIncreasing ∧
    ∀ c ∈ (generate_total nx ny nz p : CSRMatrix R).col_idx,
      c < (generate_total nx ny nz p : CSRMatrix R).num_rows := by
  constructor
  · intro i hi
    rw [generate_num_rows] at hi
    rw [generate_row_cols nx ny nz p hi]
    exact stencil_row_increasing hp hi
  · intro c hc
    rw [generate_num_rows]
    rw [generate_eq_of_rows] at hc
    simp only [CSRMatrix.of_rows, List.mem_map, List.mem_flatten, List.mem_range] at hc
    obtain ⟨e, ⟨row, ⟨i, hi, hrow⟩, he⟩, rfl⟩ := hc
    rw [← hrow] at he
    obtain ⟨c, hc, rfl⟩ := List.mem_map.1 he
    exact stencil_row_lt hp hi hc

/-- With a shuffle permutation `p`, `generate_total` stores twice the number of undirected
grid edges, and that count is the length of `col_idx` and of `values`. -/
theorem generate_total_num_nnz (nx ny nz : Nat) (p : List Nat)
    (hp : IsBijection p (nx * ny * nz)) :
    (generate_total nx ny nz p : CSRMatrix R).num_nnz =
      2 * ((nx - 1) * ny * nz + nx * (ny - 1) * nz + nx * ny * (nz - 1)) ∧
    (generate_total nx ny nz p : CSRMatrix R).col_idx.length =
      (generate_total nx ny nz p : CSRMatrix R).num_nnz ∧
    (generate_total nx ny nz p : CSRMatrix R).values.length =
      (generate_total nx ny nz p : CSRMatrix R).num_nnz := by
  rw [generate_eq_of_rows]
  refine ⟨?_, by simp only [CSRMatrix.of_rows, List.length_map],
    by simp only [CSRMatrix.of_rows, List.length_map]⟩
  simp only [CSRMatrix.of_rows, List.length_flatten, List.map_map, Function.comp_def,
    List.length_map]
  exact sum_stencil_rows hp

/-- With a shuffle permutation `p`, row `p[idx(x, y, z)]` of `generate_total` holds `p` of
the in-bounds axis neighbours of `(x, y, z)`, each with value `1`. -/
theorem generate_total_row_neighbours (nx ny nz : Nat) (p : List Nat)
    (hp : IsBijection p (nx * ny * nz)) (x y z : Nat)
    (hx : x < nx) (hy : y < ny) (hz : z < nz) :
    p.getD (get_idx nx ny x y z) 0 <
      (generate_total nx ny nz p : CSRMatrix R).num_rows ∧
    ((generate_total nx ny nz p : CSRMatrix R).row_entries
      (p.getD (get_idx nx ny x y z) 0)).length = (axis_neighbours nx ny nz x y z).length ∧
    ((generate_total nx ny nz p : CSRMatrix R).row_cols
      (p.getD (get_idx nx ny x y z) 0)).Perm
      ((axis_neighbours nx ny nz x y z).map (fun t => p.getD (idx_of_point nx ny t) 0)) ∧
    ∀ e ∈ (generate_total nx ny nz p : CSRMatrix R).row_entries
      (p.getD (get_idx nx ny x y z) 0), e.2 = 1 := by
  have hu : get_idx nx ny x y z < nx * ny * nz := get_idx_lt hx hy hz
  have hr : p.getD (get_idx nx ny x y z) 0 < nx * ny * nz := hp.getD_lt hu
  have hrow : (stencil_row nx ny nz p (p.getD (get_idx nx ny x y z) 0)).Perm
      ((axis_neighbours nx ny nz x y z).map (fun t => p.getD (idx_of_point nx ny t) 0)) := by
    have h := stencil_row_perm nx ny nz p (p.getD (get_idx nx ny x y z) 0)
    rw [build_iperm_getD_perm hp hu, stencil_adj_getD hx hy hz,
      stencil_neighbors_eq_axis hx hy hz, List.map_map] at h
    exact h
  refine ⟨by rw [generate_num_rows]; exact hr, ?_, ?_, ?_⟩
  · rw [generate_row_entries nx ny nz p hr, List.length_map, hrow.length_eq, List.length_map]
  · rw [generate_row_cols nx ny nz p hr]
    exact hrow
  · intro e he
    rw [generate_row_entries nx ny nz p hr] at he
    obtain ⟨c, _, rfl⟩ := List.mem_map.1 he
    rfl

theorem row_offsets_ge (n : Nat) (lens : List Nat) : ∀ v ∈ row_offsets n lens, n ≤ v := by
  induction lens generalizing n with
  | nil => intro v hv; simp [row_offsets] at hv
  | cons a l ih =>
    intro v hv
    simp only [row_offsets, List.mem_cons] at hv
    rcases hv with h | h
    · omega
    · have := ih (n + a) v h; omega

theorem row_offsets_pairwise (n : Nat) (lens : List Nat) :
    (n :: row_offsets n lens).Pairwise (· ≤ ·) := by
  induction lens generalizing n with
  | nil => simp [row_offsets]
  | cons a l ih =>
    rw [List.pairwise_cons]
    refine ⟨fun v hv => row_offsets_ge n _ v hv, ?_⟩
    exact ih (n + a)

/-- The `row_map` of `generate_total` has `num_rows + 1` entries, starts at `0`, is
non-decreasing and ends at `num_nnz`. -/
theorem generate_total_row_map_invariant (nx ny nz : Nat) (p : List Nat) :
    (generate_total nx ny nz p : CSRMatrix R).row_map.length =
      (generate_total nx ny nz p : CSRMatrix R).num_rows + 1 ∧
    (generate_total nx ny nz p : CSRMatrix R).row_map.getD 0 0 = 0 ∧
    (generate_total nx ny nz p : CSRMatrix R).row_map.Pairwise (· ≤ ·) ∧
    (generate_total nx ny nz p : CSRMatrix R).row_map.getD
        (generate_total nx ny nz p : CSRMatrix R).num_rows 0 =
      (generate_total nx ny nz p : CSRMatrix R).num_nnz := by
  rw [generate_eq_of_rows]
  simp only [CSRMatrix.of_rows]
  refine ⟨by simp [row_offsets_length], rfl, row_offsets_pairwise 0 _, ?_⟩
  rw [row_offsets_getD _ _ _ (by simp), List.take_of_length_le (by simp), List.length_flatten,
    Nat.zero_add]

/-- With a zero dimension `generate_total` is the empty matrix. -/
theorem generate_total_zero_dimension (nx ny nz : Nat) (p : List Nat)
    (h : nx = 0 ∨ ny = 0 ∨ nz = 0) :
    (generate_total nx ny nz p : CSRMatrix R) = empty_matrix := by
  have hN : nx * ny * nz = 0 := by
    rcases h with h | h | h <;> simp [h]
  unfold generate_total empty_matrix
  simp only [hN, List.range_zero, List.foldl_nil]

/-! ## The generator inside the range of `int` -/

theorem int_wrap_of_le {n : Nat} (h : n ≤ INT_MAX) : int_wrap (n : Int) = (n : Int) := by
  unfold int_wrap
  unfold INT_MAX at h
  omega

theorem for_loop_none {σ α : Type} (l : List α) (body : α → σ → Option σ) :
    for_loop l body none = none := by
  unfold for_loop
  induction l with
  | nil => rfl
  | cons a l ih => simpa using ih

theorem for_loop_cons {σ α : Type} (a : α) (l : List α) (body : α → σ → Option σ) (s : σ) :
    for_loop (a :: l) body (some s) = for_loop l body (body a s) := rfl

theorem for_loop_nil {σ α : Type} (body : α → σ → Option σ) (init : Option σ) :
    for_loop [] body init = init := rfl

/-- A loop whose body never faults on states satisfying an invariant runs as the total loop. -/
theorem for_loop_eq_some {σ α : Type} (Inv : σ → Prop) (l : List α)
    (body : α → σ → Option σ) (g : α → σ → σ)
    (hstep : ∀ a ∈ l, ∀ s, Inv s → body a s = some (g a s) ∧ Inv (g a s))
    (s : σ) (hs : Inv s) :
    for_loop l body (some s) = some (l.foldl (fun s a => g a s) s) ∧
      Inv (l.foldl (fun s a => g a s) s) := by
  induction l generalizing s with
  | nil => exact ⟨rfl, hs⟩
  | cons a l ih =>
    obtain ⟨h1, h2⟩ := hstep a (List.mem_cons_self _ _) s hs
    rw [for_loop_cons, h1, List.foldl_cons]
    exact ih (fun b hb => hstep b (List.mem_cons_of_mem _ hb)) _ h2

theorem for_loop_flatMap {σ α β : Type} (l : List α) (g : α → List β)
    (body : β → σ → Option σ) (init : Option σ) :
    for_loop l (fun a s => for_loop (g a) body (some s)) init =
      for_loop (l.flatMap g) body init := by
  induction l generalizing init with
  | nil => rfl
  | cons a l ih =>
    have hstep : init.bind (fun s => for_loop (g a) body (some s)) = for_loop (g a) body init := by
      cases init with
      | none => rw [for_loop_none]; rfl
      | some s => rfl
    have h1 : for_loop (a :: l) (fun a s => for_loop (g a) body (some s)) init =
        for_loop l (fun a s => for_loop (g a) body (some s))
          (init.bind (fun s => for_loop (g a) body (some s))) := rfl
    rw [h1, hstep, ih, List.flatMap_cons]
    unfold for_loop
    rw [List.foldl_append]

theorem for_loop_map {σ α β : Type} (l : List α) (f : α → β)
    (body : β → σ → Option σ) (init : Option σ) :
    for_loop (l.map f) body init = for_loop l (fun a s => body (f a) s) init := by
  unfold for_loop
  rw [List.foldl_map]

theorem stencil_adj_eq_for_loop (nx ny nz N : Nat) :
    stencil_adj nx ny nz N =
      for_loop (grid_points nx ny nz)
        (fun t adj => stencil_visit nx ny nz t.1 t.2.1 t.2.2 adj)
        (some (List.replicate N [])) := by
  unfold stencil_adj grid_points
  rw [← for_loop_flatMap]
  congr 1
  funext z adj
  rw [← for_loop_flatMap]
  congr 1
  funext y adj
  rw [for_loop_map]

theorem adj_push_back_total_length (adj : List (List Nat)) (u v : Nat) :
    (adj_push_back_total adj u v).length = adj.length := by
  simp [adj_push_back_total]

theorem cond_push_back_some (c : Prop) [Decidable c] (adj : List (List Nat)) (u v : Nat)
    (hu : u < adj.length) :
    (if c then adj_push_back adj u v else some adj) =
      some (if c then adj_push_back_total adj u v else adj) := by
  by_cases hc : c
  · simp [hc, adj_push_back, adj_push_back_total, hu]
  · simp [hc]

theorem cond_push_back_total_length (c : Prop) [Decidable c] (adj : List (List Nat))
    (u v : Nat) : (if c then adj_push_back_total adj u v else adj).length = adj.length := by
  by_cases hc : c
  · simp [hc, adj_push_back_total_length]
  · simp [hc]

theorem stencil_visit_eq_some (nx ny nz x y z : Nat) (adj : List (List Nat))
    (hu : get_idx nx ny x y z < adj.length) :
    stencil_visit nx ny nz x y z adj = some (stencil_visit_total nx ny nz x y z adj) := by
  unfold stencil_visit stencil_visit_total
  simp only
  rw [cond_push_back_some _ _ _ _ hu, Option.some_bind,
    cond_push_back_some _ _ _ _ (by rw [cond_push_back_total_length]; exact hu),
    Option.some_bind,
    cond_push_back_some _ _ _ _ (by simp only [cond_push_back_total_length]; exact hu),
    Option.some_bind,
    cond_push_back_some _ _ _ _ (by simp only [cond_push_back_total_length]; exact hu),
    Option.some_bind,
    cond_push_back_some _ _ _ _ (by simp only [cond_push_back_total_length]; exact hu),
    Option.some_bind,
    cond_push_back_some _ _ _ _ (by simp only [cond_push_back_total_length]; exact hu)]

theorem stencil_visit_total_length (nx ny nz x y z : Nat) (adj : List (List Nat)) :
    (stencil_visit_total nx ny nz x y z adj).length = adj.length := by
  rw [stencil_visit_eq, List.length_set]

/-- When `adj` has one list per grid point, part A hits no limit. -/
theorem stencil_adj_eq_some (nx ny nz : Nat) :
    stencil_adj nx ny nz (nx * ny * nz) = some (stencil_adj_total nx ny nz) := by
  rw [stencil_adj_eq_for_loop, stencil_adj_eq_foldl]
  refine (for_loop_eq_some (fun adj => adj.length = nx * ny * nz) (grid_points nx ny nz)
    _ (fun t adj => stencil_visit_total nx ny nz t.1 t.2.1 t.2.2 adj) ?_ _ (by simp)).1
  intro t ht adj hadj
  obtain ⟨hx, hy, hz⟩ := mem_grid_points.1 ht
  exact ⟨stencil_visit_eq_some nx ny nz _ _ _ adj (by rw [hadj]; exact get_idx_lt hx hy hz),
    by show (stencil_visit_total nx ny nz t.1 t.2.1 t.2.2 adj).length = nx * ny * nz
       rw [stencil_visit_total_length]; exact hadj⟩

/-- On a grid with a zero dimension no grid point is visited. -/
theorem grid_points_eq_nil {nx ny nz : Nat} (h : nx = 0 ∨ ny = 0 ∨ nz = 0) :
    grid_points nx ny nz = [] := by
  apply List.eq_nil_of_length_eq_zero
  rw [grid_points_length]
  rcases h with h | h | h <;> simp [h]

/-- With no list in `adj`, the first `push_back` of the first grid point faults. -/
theorem stencil_adj_zero_eq_none {nx ny nz : Nat} (hnx : 2 ≤ nx) (hny : 1 ≤ ny)
    (hnz : 1 ≤ nz) : stencil_adj nx ny nz 0 = none := by
  obtain ⟨a, rfl⟩ : ∃ a, nx = a + 1 := ⟨nx - 1, by omega⟩
  obtain ⟨b, rfl⟩ : ∃ b, ny = b + 1 := ⟨ny - 1, by omega⟩
  obtain ⟨c, rfl⟩ : ∃ c, nz = c + 1 := ⟨nz - 1, by omega⟩
  have hvisit : stencil_visit (a + 1) (b + 1) (c + 1) 0 0 0 [] = none := by
    have ha : 0 < a + 1 - 1 := by omega
    unfold stencil_visit
    simp only [gt_iff_lt, Nat.lt_irrefl, if_false, Option.some_bind, if_pos ha, adj_push_back,
      List.length_nil, Nat.not_lt_zero, Option.none_bind]
  unfold stencil_adj
  rw [List.range_succ_eq_map c, List.replicate_zero, for_loop_cons,
    List.range_succ_eq_map b, for_loop_cons, List.range_succ_eq_map a, for_loop_cons, hvisit,
    for_loop_none, for_loop_none, for_loop_none]

/-- The column loop of part C: it faults exactly when the counter would pass `INT_MAX`. -/
theorem push_cols_checked (cols : List Nat) (st : CSRMatrix R × Nat) (hst : st.2 ≤ INT_MAX) :
    for_loop cols
      (fun col (st : CSRMatrix R × Nat) =>
        if st.2 < INT_MAX then
          some ({ st.1 with col_idx := st.1.col_idx ++ [col],
                            values := st.1.values ++ [1] }, st.2 + 1)
        else none)
      (some st) =
    if st.2 + cols.length ≤ INT_MAX then
      some (cols.foldl
        (fun (st : CSRMatrix R × Nat) col =>
          ({ st.1 with col_idx := st.1.col_idx ++ [col], values := st.1.values ++ [1] },
            st.2 + 1))
        st)
    else none := by
  induction cols generalizing st with
  | nil => rw [if_pos (by simpa using hst)]; rfl
  | cons col cols ih =>
    rw [for_loop_cons]
    by_cases h : st.2 < INT_MAX
    · rw [if_pos h, ih _ (by simp only; omega), List.foldl_cons, List.length_cons]
      by_cases h2 : st.2 + (cols.length + 1) ≤ INT_MAX
      · rw [if_pos h2, if_pos (by simp only; omega)]
      · rw [if_neg h2, if_neg (by simp only; omega)]
    · rw [if_neg h, for_loop_none, if_neg (by rw [List.length_cons]; omega)]

theorem push_cols_total_snd (cols : List Nat) (st : CSRMatrix R × Nat) :
    (cols.foldl
      (fun (st : CSRMatrix R × Nat) col =>
        ({ st.1 with col_idx := st.1.col_idx ++ [col], values := st.1.values ++ [1] },
          st.2 + 1))
      st).2 = st.2 + cols.length := by
  rw [push_cols_eq]; simp

theorem push_rows_total_snd {ι : Type} (l : List ι) (rowOf : ι → List Nat)
    (st : CSRMatrix R × Nat) :
    (l.foldl
      (fun (st : CSRMatrix R × Nat) i =>
        let st := (rowOf i).foldl
          (fun (st : CSRMatrix R × Nat) col =>
            ({ st.1 with col_idx := st.1.col_idx ++ [col], values := st.1.values ++ [1] },
              st.2 + 1))
          st
        ({ st.1 with row_map := st.1.row_map ++ [st.2] }, st.2))
      st).2 = st.2 + ((l.map rowOf).map List.length).sum := by
  induction l generalizing st with
  | nil => simp
  | cons i l ih =>
    rw [List.foldl_cons, ih]
    simp only [push_cols_total_snd, List.map_cons, List.sum_cons]
    omega

/-- The row loop of part C: it faults exactly when the number of stored entries would pass
`INT_MAX`. -/
theorem push_rows_checked {ι : Type} (l : List ι) (rowOf : ι → List Nat)
    (st : CSRMatrix R × Nat) (hst : st.2 ≤ INT_MAX) :
    for_loop l
      (fun i (st : CSRMatrix R × Nat) =>
        (for_loop (rowOf i)
          (fun col (st : CSRMatrix R × Nat) =>
            if st.2 < INT_MAX then
              some ({ st.1 with col_idx := st.1.col_idx ++ [col],
                                values := st.1.values ++ [1] }, st.2 + 1)
            else none)
          (some st)).map
          (fun st => ({ st.1 with row_map := st.1.row_map ++ [st.2] }, st.2)))
      (some st) =
    if st.2 + ((l.map rowOf).map List.length).sum ≤ INT_MAX then
      some (l.foldl
        (fun (st : CSRMatrix R × Nat) i =>
          let st := (rowOf i).foldl
            (fun (st : CSRMatrix R × Nat) col =>
              ({ st.1 with col_idx := st.1.col_idx ++ [col], values := st.1.values ++ [1] },
                st.2 + 1))
            st
          ({ st.1 with row_map := st.1.row_map ++ [st.2] }, st.2))
        st)
    else none := by
  induction l generalizing st with
  | nil => rw [if_pos (by simpa using hst)]; rfl
  | cons i l ih =>
    rw [for_loop_cons, push_cols_checked _ _ hst, List.foldl_cons]
    simp only [List.map_cons, List.sum_cons]
    by_cases h : st.2 + (rowOf i).length ≤ INT_MAX
    · rw [if_pos h, Option.map_some', ih _ (by simp only [push_cols_total_snd]; exact h)]
      simp only [push_cols_total_snd, Nat.add_assoc]
    · rw [if_neg h, Option.map_none', for_loop_none, if_neg (by omega)]

/-- With `N` inside the range of `int`, the generator returns the matrix of the loops without
machine limits when its number of entries is inside the range too, and faults otherwise. -/
theorem generate_eq_ite (nx ny nz : Nat) (p : List Nat) (hN : nx * ny * nz ≤ INT_MAX) :
    (generate_3d_stencil_shuffled nx ny nz p : Option (CSRMatrix R)) =
      if (generate_total nx ny nz p : CSRMatrix R).num_nnz ≤ INT_MAX then
        some (generate_total nx ny nz p)
      else none := by
  have hcast : (nx : Int) * (ny : Int) * (nz : Int) = ((nx * ny * nz : Nat) : Int) := by
    push_cast; rfl
  have hnn : ¬ ((nx * ny * nz : Nat) : Int) < 0 := by omega
  have hnnz : (generate_total nx ny nz p : CSRMatrix R).num_nnz =
      0 + (((List.range (nx * ny * nz)).map (fun new_u =>
        List.insertionSort (· ≤ ·)
          (((stencil_adj_total nx ny nz).getD
            ((build_iperm (nx * ny * nz) p).getD new_u 0) []).map
            (fun old_v => p.getD old_v 0)))).map List.length).sum := by
    unfold generate_total
    simp only
    exact push_rows_total_snd _ _ _
  rw [hnnz]
  unfold generate_3d_stencil_shuffled
  simp only [hcast, int_wrap_of_le hN, if_neg hnn, Int.toNat_ofNat, stencil_adj_eq_some,
    Option.some_bind]
  rw [push_rows_checked _ _ _ (Nat.zero_le _)]
  by_cases h : 0 + (((List.range (nx * ny * nz)).map (fun new_u =>
        List.insertionSort (· ≤ ·)
          (((stencil_adj_total nx ny nz).getD
            ((build_iperm (nx * ny * nz) p).getD new_u 0) []).map
            (fun old_v => p.getD old_v 0)))).map List.length).sum ≤ INT_MAX
  · rw [if_pos h, if_pos h, Option.map_some']
    rfl
  · rw [if_neg h, if_neg h, Option.map_none']

/-- Inside the range of `int`, with a shuffle permutation `p`, the generator returns the
matrix of the loops without machine limits. -/
theorem generate_eq_some (nx ny nz : Nat) (p : List Nat) (hN : nx * ny * nz ≤ INT_MAX)
    (hnnz : 2 * ((nx - 1) * ny * nz + nx * (ny - 1) * nz + nx * ny * (nz - 1)) ≤ INT_MAX)
    (hp : IsBijection p (nx * ny * nz)) :
    (generate_3d_stencil_shuffled nx ny nz p : Option (CSRMatrix R)) =
      some (generate_total nx ny nz p) := by
  rw [generate_eq_ite nx ny nz p hN, if_pos]
  rw [(generate_total_num_nnz nx ny nz p hp).1]
  exact hnnz

/-- When `N = nx * ny * nz` wraps to `0`, `adj` is empty and the first `push_back` faults. -/
theorem generate_eq_none_of_wrap_zero (nx ny nz : Nat) (p : List Nat) (hnx : 2 ≤ nx)
    (hny : 1 ≤ ny) (hnz : 1 ≤ nz)
    (hw : int_wrap ((nx : Int) * (ny : Int) * (nz : Int)) = 0) :
    (generate_3d_stencil_shuffled nx ny nz p : Option (CSRMatrix R)) = none := by
  unfold generate_3d_stencil_shuffled
  simp only [hw, lt_irrefl, if_false, Int.toNat_zero, stencil_adj_zero_eq_none hnx hny hnz,
    Option.none_bind]

/-- When `N` fits in `int` but the number of entries does not, `current_nnz` overflows. -/
theorem generate_eq_none_of_nnz (nx ny nz : Nat) (p : List Nat) (hN : nx * ny * nz ≤ INT_MAX)
    (hp : IsBijection p (nx * ny * nz))
    (hnnz : INT_MAX < 2 * ((nx - 1) * ny * nz + nx * (ny - 1) * nz + nx * ny * (nz - 1))) :
    (generate_3d_stencil_shuffled nx ny nz p : Option (CSRMatrix R)) = none := by
  rw [generate_eq_ite nx ny nz p hN, if_neg]
  rw [(generate_total_num_nnz nx ny nz p hp).1]
  omega

theorem isBijection_range (N : Nat) : IsBijection (List.range N) N :=
  ⟨List.length_range N, List.nodup_range N, fun _ hv => List.mem_range.1 hv⟩

/-- On the `65536 x 65536 x 1` grid `N = 2^32` wraps to `0` and the generator faults. -/
theorem generate_fault_wrap (p : List Nat) :
    (generate_3d_stencil_shuffled 65536 65536 1 p : Option (CSRMatrix R)) = none :=
  generate_eq_none_of_wrap_zero 65536 65536 1 p (by decide) (by decide) (by decide)
    (by decide)

/-- On the `711 x 711 x 711` grid `N = 359425431` fits in `int` but the `2153519460`
entries do not, and the generator faults. -/
theorem generate_fault_count :
    (generate_3d_stencil_shuffled 711 711 711 (List.range (711 * 711 * 711)) :
      Option (CSRMatrix R)) = none :=
  generate_eq_none_of_nnz 711 711 711 _ (by decide) (isBijection_range _) (by decide)

/-! ## The stencil generator -/

/-- C8, amended. For all grid dimensions `nx, ny, nz ≥ 1` whose node count `nx*ny*nz` and
entry count `2 * ((nx-1)*ny*nz + nx*(ny-1)*nz + nx*ny*(nz-1))` are at most `INT_MAX`, and
every shuffle permutation `p` of `[0, nx*ny*nz)`, `generate_3d_stencil_shuffled` returns a
matrix, every row of which has strictly increasing column indices and every column index of
which is below `num_rows`. -/
theorem generate_rows_increasing (nx ny nz : Nat) (p : List Nat) (_hnx : 1 ≤ nx)
    (_hny : 1 ≤ ny) (_hnz : 1 ≤ nz) (hN : nx * ny * nz ≤ INT_MAX)
    (hnnz : 2 * ((nx - 1) * ny * nz + nx * (ny - 1) * nz + nx * ny * (nz - 1)) ≤ INT_MAX)
    (hp : IsBijection p (nx * ny * nz)) :
    ∃ M : CSRMatrix R, generate_3d_stencil_shuffled nx ny nz p = some M ∧
      M.RowsStrictlyIncreasing ∧ ∀ c ∈ M.col_idx, c < M.num_rows :=
  ⟨generate_total nx ny nz p, generate_eq_some nx ny nz p hN hnnz hp,
    generate_total_rows_increasing nx ny nz p hp⟩

/-- C8, amended, on the 3 x 2 x 1 grid with the shuffle `p = [3, 1, 2, 0, 5, 4]`. -/
theorem generate_rows_increasing_scenario :
    (generate_3d_stencil_shuffled 3 2 1 [3, 1, 2, 0, 5, 4] : Option (CSRMatrix ℤ)) =
      some { row_map := [0, 2, 5, 7, 9, 11, 14],
             col_idx := [3, 5, 2, 3, 5, 1, 4, 0, 1, 2, 5, 0, 1, 4],
             values := [1, 1, 1, 1, 1, 1, 1, 1, 1, 1, 1, 1, 1, 1],
             num_rows := 6, num_nnz := 14 } ∧
    ∃ M : CSRMatrix ℤ, generate_3d_stencil_shuffled 3 2 1 [3, 1, 2, 0, 5, 4] = some M ∧
      M.RowsStrictlyIncreasing ∧ ∀ c ∈ M.col_idx, c < M.num_rows :=
  ⟨by decide,
    generate_rows_increasing 3 2 1 [3, 1, 2, 0, 5, 4] (by decide) (by decide) (by decide)
      (by decide) (by decide) (by decide)⟩

/-- C8 as stated fails. On the 65536 x 65536 x 1 grid the `int` product `N = 2^32` wraps to
`0`, `adj` is empty and the first `push_back` is out of bounds: no matrix is built, whatever
the shuffle. On the 711 x 711 x 711 grid `N` fits but the entry count `2153519460` exceeds
`INT_MAX`, so `current_nnz` overflows. -/
theorem generate_rows_increasing_overflow :
    (∀ p : List Nat, ¬ ∃ M : CSRMatrix ℤ,
      generate_3d_stencil_shuffled 65536 65536 1 p = some M ∧
        M.RowsStrictlyIncreasing ∧ ∀ c ∈ M.col_idx, c < M.num_rows) ∧
    IsBijection (List.range (711 * 711 * 711)) (711 * 711 * 711) ∧
    ¬ ∃ M : CSRMatrix ℤ,
      generate_3d_stencil_shuffled 711 711 711 (List.range (711 * 711 * 711)) = some M ∧
        M.RowsStrictlyIncreasing ∧ ∀ c ∈ M.col_idx, c < M.num_rows := by
  refine ⟨fun p h => ?_, isBijection_range _, fun h => ?_⟩
  · obtain ⟨M, hM, _⟩ := h
    rw [generate_fault_wrap] at hM
    exact Option.noConfusion hM
  · obtain ⟨M, hM, _⟩ := h
    rw [generate_fault_count] at hM
    exact Option.noConfusion hM

/-- C9, amended. For all grid dimensions `nx, ny, nz ≥ 1` whose node count `nx*ny*nz` and
entry count `2 * ((nx-1)*ny*nz + nx*(ny-1)*nz + nx*ny*(nz-1))` are at most `INT_MAX`, and
every shuffle permutation `p`, `generate_3d_stencil_shuffled` returns a matrix whose
`num_nnz` is that entry count, twice the number of undirected axis-aligned grid edges, and
is the length of `col_idx` and of `values`. -/
theorem generate_num_nnz (nx ny nz : Nat) (p : List Nat) (_hnx : 1 ≤ nx) (_hny : 1 ≤ ny)
    (_hnz : 1 ≤ nz) (hN : nx * ny * nz ≤ INT_MAX)
    (hnnz : 2 * ((nx - 1) * ny * nz + nx * (ny - 1) * nz + nx * ny * (nz - 1)) ≤ INT_MAX)
    (hp : IsBijection p (nx * ny * nz)) :
    ∃ M : CSRMatrix R, generate_3d_stencil_shuffled nx ny nz p = some M ∧
      M.num_nnz = 2 * ((nx - 1) * ny * nz + nx * (ny - 1) * nz + nx * ny * (nz - 1)) ∧
      M.col_idx.length = M.num_nnz ∧ M.values.length = M.num_nnz :=
  ⟨generate_total nx ny nz p, generate_eq_some nx ny nz p hN hnnz hp,
    generate_total_num_nnz nx ny nz p hp⟩

/-- C9, amended, on the 3 x 2 x 1 grid (7 undirected edges) with the shuffle
`p = [3, 1, 2, 0, 5, 4]`: 14 entries. -/
theorem generate_num_nnz_scenario :
    (generate_3d_stencil_shuffled 3 2 1 [3, 1, 2, 0, 5, 4] : Option (CSRMatrix ℤ)).map
      (fun M => M.num_nnz) = some 14 ∧
    ∃ M : CSRMatrix ℤ, generate_3d_stencil_shuffled 3 2 1 [3, 1, 2, 0, 5, 4] = some M ∧
      M.num_nnz = 2 * ((3 - 1) * 2 * 1 + 3 * (2 - 1) * 1 + 3 * 2 * (1 - 1)) ∧
      M.col_idx.length = M.num_nnz ∧ M.values.length = M.num_nnz :=
  ⟨by decide,
    generate_num_nnz 3 2 1 [3, 1, 2, 0, 5, 4] (by decide) (by decide) (by decide)
      (by decide) (by decide) (by decide)⟩

/-- C9 as stated fails. On the 65536 x 65536 x 1 grid `N = 2^32` wraps to `0` and the run
faults at the first `push_back`, so no matrix with `17179607040` entries is built; on the
711 x 711 x 711 grid `N` fits but the count `2153519460` exceeds `INT_MAX` and the `int`
counter `current_nnz` cannot hold it. -/
theorem generate_num_nnz_overflow :
    (∀ p : List Nat, ¬ ∃ M : CSRMatrix ℤ,
      generate_3d_stencil_shuffled 65536 65536 1 p = some M ∧
        M.num_nnz = 2 * ((65536 - 1) * 65536 * 1 + 65536 * (65536 - 1) * 1 +
          65536 * 65536 * (1 - 1)) ∧
        M.col_idx.length = M.num_nnz ∧ M.values.length = M.num_nnz) ∧
    IsBijection (List.range (711 * 711 * 711)) (711 * 711 * 711) ∧
    INT_MAX < 2 * ((711 - 1) * 711 * 711 + 711 * (711 - 1) * 711 + 711 * 711 * (711 - 1)) ∧
    ¬ ∃ M : CSRMatrix ℤ,
      generate_3d_stencil_shuffled 711 711 711 (List.range (711 * 711 * 711)) = some M ∧
        M.num_nnz = 2 * ((711 - 1) * 711 * 711 + 711 * (711 - 1) * 711 +
          711 * 711 * (711 - 1)) ∧
        M.col_idx.length = M.num_nnz ∧ M.values.length = M.num_nnz := by
  refine ⟨fun p h => ?_, isBijection_range _, by decide, fun h => ?_⟩
  · obtain ⟨M, hM, _⟩ := h
    rw [generate_fault_wrap] at hM
    exact Option.noConfusion hM
  · obtain ⟨M, hM, _⟩ := h
    rw [generate_fault_count] at hM
    exact Option.noConfusion hM

/-- C10, amended. For all grid dimensions `nx, ny, nz ≥ 1` whose node count and entry count
are at most `INT_MAX`, every shuffle permutation `p` and every grid point `(x, y, z)` with
`u = idx(x, y, z)`, `generate_3d_stencil_shuffled` returns a matrix in which row `p[u]`
exists, has exactly as many entries as `(x, y, z)` has axis-aligned neighbours inside the
grid bounds, has as column indices exactly `p` applied to the indices of those neighbours,
and stores the value `1` everywhere. -/
theorem generate_row_neighbours (nx ny nz : Nat) (p : List Nat) (_hnx : 1 ≤ nx)
    (_hny : 1 ≤ ny) (_hnz : 1 ≤ nz) (hN : nx * ny * nz ≤ INT_MAX)
    (hnnz : 2 * ((nx - 1) * ny * nz + nx * (ny - 1) * nz + nx * ny * (nz - 1)) ≤ INT_MAX)
    (hp : IsBijection p (nx * ny * nz)) (x y z : Nat)
    (hx : x < nx) (hy : y < ny) (hz : z < nz) :
    ∃ M : CSRMatrix R, generate_3d_stencil_shuffled nx ny nz p = some M ∧
      p.getD (get_idx nx ny x y z) 0 < M.num_rows ∧
      (M.row_entries (p.getD (get_idx nx ny x y z) 0)).length =
        (axis_neighbours nx ny nz x y z).length ∧
      (M.row_cols (p.getD (get_idx nx ny x y z) 0)).Perm
        ((axis_neighbours nx ny nz x y z).map (fun t => p.getD (idx_of_point nx ny t) 0)) ∧
      ∀ e ∈ M.row_entries (p.getD (get_idx nx ny x y z) 0), e.2 = 1 :=
  ⟨generate_total nx ny nz p, generate_eq_some nx ny nz p hN hnnz hp,
    generate_total_row_neighbours nx ny nz p hp x y z hx hy hz⟩

/-- C10, amended, scenario 3 and the edge case: the 2 x 2 x 2 grid with the identity shuffle
gives 8 rows of exactly 3 entries each, and the 1 x 1 x 1 grid gives a single empty row. -/
theorem generate_row_neighbours_scenario :
    (generate_3d_stencil_shuffled 2 2 2 (List.range 8) : Option (CSRMatrix ℤ)) =
      some stencil_2x2x2 ∧
    (∀ i, i < 8 → (stencil_2x2x2.row_entries i).length = 3) ∧
    (generate_3d_stencil_shuffled 1 1 1 (List.range 1) : Option (CSRMatrix ℤ)) =
      some { row_map := [0, 0], col_idx := [], values := [], num_rows := 1, num_nnz := 0 } ∧
    ∃ M : CSRMatrix ℤ, generate_3d_stencil_shuffled 2 2 2 (List.range 8) = some M ∧
      (List.range 8).getD (get_idx 2 2 1 0 1) 0 < M.num_rows ∧
      (M.row_entries ((List.range 8).getD (get_idx 2 2 1 0 1) 0)).length =
        (axis_neighbours 2 2 2 1 0 1).length ∧
      (M.row_cols ((List.range 8).getD (get_idx 2 2 1 0 1) 0)).Perm
        ((axis_neighbours 2 2 2 1 0 1).map
          (fun t => (List.range 8).getD (idx_of_point 2 2 t) 0)) ∧
      ∀ e ∈ M.row_entries ((List.range 8).getD (get_idx 2 2 1 0 1) 0), e.2 = 1 :=
  ⟨by decide, by decide, by decide,
    generate_row_neighbours 2 2 2 (List.range 8) (by decide) (by decide) (by decide)
      (by decide) (by decide) (by decide) 1 0 1 (by decide) (by decide) (by decide)⟩

/-- C10 as stated fails. On the 65536 x 65536 x 1 grid `N = 2^32` wraps to `0` and the run
faults at the first `push_back`, so the row of the grid point `(0, 0, 0)` does not exist,
whatever the shuffle; on the 711 x 711 x 711 grid the entry count exceeds `INT_MAX` and
`current_nnz` overflows. -/
theorem generate_row_neighbours_overflow :
    (∀ p : List Nat, ¬ ∃ M : CSRMatrix ℤ,
      generate_3d_stencil_shuffled 65536 65536 1 p = some M ∧
        p.getD (get_idx 65536 65536 0 0 0) 0 < M.num_rows ∧
        (M.row_entries (p.getD (get_idx 65536 65536 0 0 0) 0)).length =
          (axis_neighbours 65536 65536 1 0 0 0).length) ∧
    IsBijection (List.range (711 * 711 * 711)) (711 * 711 * 711) ∧
    ¬ ∃ M : CSRMatrix ℤ,
      generate_3d_stencil_shuffled 711 711 711 (List.range (711 * 711 * 711)) = some M ∧
        (List.range (711 * 711 * 711)).getD (get_idx 711 711 0 0 0) 0 < M.num_rows ∧
        (M.row_entries ((List.range (711 * 711 * 711)).getD (get_idx 711 711 0 0 0) 0)).length
          = (axis_neighbours 711 711 711 0 0 0).length := by
  refine ⟨fun p h => ?_, isBijection_range _, fun h => ?_⟩
  · obtain ⟨M, hM, _⟩ := h
    rw [generate_fault_wrap] at hM
    exact Option.noConfusion hM
  · obtain ⟨M, hM, _⟩ := h
    rw [generate_fault_count] at hM
    exact Option.noConfusion hM

/-- C11, amended. For all grid dimensions `nx, ny, nz ≥ 1` whose node count and entry count
are at most `INT_MAX`, and every shuffle permutation `p`, `generate_3d_stencil_shuffled`
returns a matrix whose `row_map` has `num_rows + 1` entries, starts at `0`, is non-decreasing
and ends at `num_nnz`. -/
theorem generate_row_map_invariant (nx ny nz : Nat) (p : List Nat) (_hnx : 1 ≤ nx)
    (_hny : 1 ≤ ny) (_hnz : 1 ≤ nz) (hN : nx * ny * nz ≤ INT_MAX)
    (hnnz : 2 * ((nx - 1) * ny * nz + nx * (ny - 1) * nz + nx * ny * (nz - 1)) ≤ INT_MAX)
    (hp : IsBijection p (nx * ny * nz)) :
    ∃ M : CSRMatrix R, generate_3d_stencil_shuffled nx ny nz p = some M ∧
      M.row_map.length = M.num_rows + 1 ∧ M.row_map.getD 0 0 = 0 ∧
      M.row_map.Pairwise (· ≤ ·) ∧ M.row_map.getD M.num_rows 0 = M.num_nnz :=
  ⟨generate_total nx ny nz p, generate_eq_some nx ny nz p hN hnnz hp,
    generate_total_row_map_invariant nx ny nz p⟩

/-- C11, amended, on the 3 x 2 x 1 grid with the shuffle `p = [3, 1, 2, 0, 5, 4]`:
`row_map = [0, 2, 5, 7, 9, 11, 14]`. -/
theorem generate_row_map_invariant_scenario :
    (generate_3d_stencil_shuffled 3 2 1 [3, 1, 2, 0, 5, 4] : Option (CSRMatrix ℤ)).map
      (fun M => M.row_map) = some [0, 2, 5, 7, 9, 11, 14] ∧
    ∃ M : CSRMatrix ℤ, generate_3d_stencil_shuffled 3 2 1 [3, 1, 2, 0, 5, 4] = some M ∧
      M.row_map.length = M.num_rows + 1 ∧ M.row_map.getD 0 0 = 0 ∧
      M.row_map.Pairwise (· ≤ ·) ∧ M.row_map.getD M.num_rows 0 = M.num_nnz :=
  ⟨by decide,
    generate_row_map_invariant 3 2 1 [3, 1, 2, 0, 5, 4] (by decide) (by decide) (by decide)
      (by decide) (by decide) (by decide)⟩

/-- C11 as stated fails. On the 65536 x 65536 x 1 grid `N = 2^32` wraps to `0` and the run
faults at the first `push_back`, so no `row_map` of `2^32 + 1` entries is built, whatever the
shuffle; on the 711 x 711 x 711 grid the running count pushed to `row_map` exceeds `INT_MAX`
and `current_nnz` overflows. -/
theorem generate_row_map_invariant_overflow :
    (∀ p : List Nat, ¬ ∃ M : CSRMatrix ℤ,
      generate_3d_stencil_shuffled 65536 65536 1 p = some M ∧
        M.row_map.length = M.num_rows + 1 ∧ M.row_map.getD 0 0 = 0 ∧
        M.row_map.Pairwise (· ≤ ·) ∧ M.row_map.getD M.num_rows 0 = M.num_nnz) ∧
    IsBijection (List.range (711 * 711 * 711)) (711 * 711 * 711) ∧
    ¬ ∃ M : CSRMatrix ℤ,
      generate_3d_stencil_shuffled 711 711 711 (List.range (711 * 711 * 711)) = some M ∧
        M.row_map.length = M.num_rows + 1 ∧ M.row_map.getD 0 0 = 0 ∧
        M.row_map.Pairwise (· ≤ ·) ∧ M.row_map.getD M.num_rows 0 = M.num_nnz := by
  refine ⟨fun p h => ?_, isBijection_range _, fun h => ?_⟩
  · obtain ⟨M, hM, _⟩ := h
    rw [generate_fault_wrap] at hM
    exact Option.noConfusion hM
  · obtain ⟨M, hM, _⟩ := h
    rw [generate_fault_count] at hM
    exact Option.noConfusion hM

/-! ## Inputs the specification rejects -/

/-- C12, amended. The generator does not validate its dimensions: whenever one of `nx`,
`ny`, `nz` is zero it raises no error and returns the empty matrix, with `num_rows = 0`,
`row_map = [0]`, no column indices, no values and `num_nnz = 0`. -/
theorem generate_zero_dimension (nx ny nz : Nat) (p : List Nat)
    (h : nx = 0 ∨ ny = 0 ∨ nz = 0) :
    (generate_3d_stencil_shuffled nx ny nz p : Option (CSRMatrix R)) = some empty_matrix := by
  have hN : nx * ny * nz = 0 := by
    rcases h with h | h | h <;> simp [h]
  rw [generate_eq_ite nx ny nz p (by rw [hN]; exact Nat.zero_le _),
    generate_total_zero_dimension nx ny nz p h, if_pos]
  exact Nat.zero_le _

/-- C12, amended, on the grid `3 x 0 x 2`. -/
theorem generate_zero_dimension_scenario :
    (generate_3d_stencil_shuffled 3 0 2 [] : Option (CSRMatrix ℤ)) = some empty_matrix :=
  generate_zero_dimension 3 0 2 [] (by decide)

/-- C12 as stated fails: for `nx = 0, ny = 1, nz = 1` the validated generator of the
specification rejects the input, while `generate_3d_stencil_shuffled` returns the empty
matrix. -/
theorem generate_zero_dimension_not_rejected :
    (generate_validated_spec 0 1 1 [] : Option (CSRMatrix ℤ)) = none ∧
    (generate_3d_stencil_shuffled 0 1 1 [] : Option (CSRMatrix ℤ)) =
      some { row_map := [0], col_idx := [], values := [], num_rows := 0, num_nnz := 0 } ∧
    (generate_3d_stencil_shuffled 0 1 1 [] : Option (CSRMatrix ℤ)) ≠
      generate_validated_spec 0 1 1 [] := by
  decide

/-- The row sum of row `perm[i]` of the permuted matrix against any relabelling `x'` of `x`
is the row sum of row `i` of the source matrix against `x`. -/
theorem permute_matrix_row_sum_relabelled (A : CSRMatrix R) (perm : List Nat) (x x' : List R)
    (hA : A.WellFormed) (hp : IsBijection perm A.num_rows)
    (hrel : ∀ c, c < A.num_rows → x'.getD (perm.getD c 0) 0 = x.getD c 0)
    {i : Nat} (hi : i < A.num_rows) :
    SpMV_Kernel_row (permute_matrix A perm).row_map (permute_matrix A perm).col_idx
        (permute_matrix A perm).values x' (perm.getD i 0) =
      SpMV_Kernel_row A.row_map A.col_idx A.values x i := by
  rw [SpMV_Kernel_row_eq_entries, SpMV_Kernel_row_eq_entries,
    ((permute_matrix_row_perm_image A perm hp hi).map _).sum_eq, List.map_map]
  congr 1
  apply List.map_congr_left
  intro e he
  simp only [Function.comp, relabel]
  rw [hrel _ (hA.row_entries_col_lt hi he)]

theorem SpMV_Run_getD (A : CSRMatrix R) (x : List R) (sched : List Nat)
    (hs : sched.Perm (List.range A.num_rows)) {i : Nat} (hi : i < A.num_rows) :
    (SpMV_Run A x sched).getD i 0 = SpMV_Kernel_row A.row_map A.col_idx A.values x i := by
  rw [SpMV_Run_eq_Kernel, SpMV_Kernel_eq_map A x sched hs, List.getD_eq_getElem?_getD,
    List.getElem?_map, List.getElem?_range hi]
  rfl

theorem SpMV_Run_length (A : CSRMatrix R) (x : List R) (sched : List Nat)
    (hs : sched.Perm (List.range A.num_rows)) : (SpMV_Run A x sched).length = A.num_rows := by
  rw [SpMV_Run_eq_Kernel, SpMV_Kernel_eq_map A x sched hs]; simp

/-- C14. For a well-formed square CSR matrix `A` with `N` rows, a bijection `perm` on
`[0, N)`, a vector `x` of length `N` and its relabelling `x'` (`x'[perm[i]] = x[i]`), the flat
kernel `SpMV_Run` on `permute_matrix A perm` and `x'` returns `y'` of length `N` with
`y'[perm[i]] = y[i]` for every `i < N`, where `y` is `SpMV_Run` on `A` and `x`; in
particular with `x` all ones, as the benchmark uses, `y'` is `y` relabelled by `perm`. -/
theorem SpMV_reordering_relabels (A : CSRMatrix R) (perm : List Nat) (x x' : List R)
    (sched sched' : List Nat) (hA : A.WellFormed) (hp : IsBijection perm A.num_rows)
    (_hx : x.length = A.num_rows) (_hx' : x'.length = A.num_rows)
    (hrel : ∀ i, i < A.num_rows → x'.getD (perm.getD i 0) 0 = x.getD i 0)
    (hs : sched.Perm (List.range A.num_rows)) (hs' : sched'.Perm (List.range A.num_rows)) :
    (SpMV_Run (permute_matrix A perm) x' sched').length = A.num_rows ∧
    (SpMV_Run A x sched).length = A.num_rows ∧
    (∀ i, i < A.num_rows →
      (SpMV_Run (permute_matrix A perm) x' sched').getD (perm.getD i 0) 0 =
        (SpMV_Run A x sched).getD i 0) ∧
    ∀ i, i < A.num_rows →
      (SpMV_Run (permute_matrix A perm) (List.replicate A.num_rows 1) sched').getD
          (perm.getD i 0) 0 =
        (SpMV_Run A (List.replicate A.num_rows 1) sched).getD i 0 := by
  have hs'' : sched'.Perm (List.range (permute_matrix A perm).num_rows) := by
    rw [permute_matrix_num_rows]; exact hs'
  have key : ∀ (v v' : List R),
      (∀ c, c < A.num_rows → v'.getD (perm.getD c 0) 0 = v.getD c 0) →
      ∀ i, i < A.num_rows →
        (SpMV_Run (permute_matrix A perm) v' sched').getD (perm.getD i 0) 0 =
          (SpMV_Run A v sched).getD i 0 := by
    intro v v' hv i hi
    rw [SpMV_Run_getD _ _ _ hs'' (by rw [permute_matrix_num_rows]; exact hp.getD_lt hi),
      SpMV_Run_getD _ _ _ hs hi]
    exact permute_matrix_row_sum_relabelled A perm v v' hA hp hv hi
  refine ⟨?_, SpMV_Run_length A x sched hs, key x x' hrel, key _ _ ?_⟩
  · rw [SpMV_Run_length _ _ _ hs'', permute_matrix_num_rows]
  · intro c hc
    have h1 : perm.getD c 0 < (List.replicate A.num_rows (1 : R)).length := by
      rw [List.length_replicate]; exact hp.getD_lt hc
    have h2 : c < (List.replicate A.num_rows (1 : R)).length := by
      rw [List.length_replicate]; exact hc
    rw [List.getD_eq_getElem _ _ h1, List.getD_eq_getElem _ _ h2]
    simp

/-- C14 on the 4 x 4 scenario matrix with `perm = [1, 2, 3, 0]`, `x = [1, 2, 3, 4]` and
`x' = [4, 1, 2, 3]`: `y = [90, 60, 430, 280]` and `y' = [280, 90, 60, 430]`. -/
theorem SpMV_reordering_relabels_scenario :
    SpMV_Run scenario_matrix [1, 2, 3, 4] [0, 1, 2, 3] = [90, 60, 430, 280] ∧
    SpMV_Run (permute_matrix scenario_matrix [1, 2, 3, 0]) [4, 1, 2, 3] [3, 2, 1, 0] =
      [280, 90, 60, 430] ∧
    ∀ i, i < 4 →
      (SpMV_Run (permute_matrix scenario_matrix [1, 2, 3, 0]) [4, 1, 2, 3] [3, 2, 1, 0]).getD
          (([1, 2, 3, 0] : List Nat).getD i 0) 0 =
        (SpMV_Run scenario_matrix [1, 2, 3, 4] [0, 1, 2, 3]).getD i 0 :=
  ⟨by decide, by decide,
    (SpMV_reordering_relabels scenario_matrix [1, 2, 3, 0] [1, 2, 3, 4] [4, 1, 2, 3]
      [0, 1, 2, 3] [3, 2, 1, 0] (by decide) (by decide) (by decide) (by decide) (by decide)
      (by decide) (by decide)).2.2.1⟩

end Kernels


end KokkosLearning
